import Mathlib

/-!
Verification of the gemini-service spec against a shallow embedding of the
Python sources.

Embedded modules:
* `app/routes/multi_image_index.py` — datapoint-id codec, candidate
  aggregator, exact re-ranker, multi-image rebuild with rate limiting;
* `app/routes/index_ops.py` — text-index rebuild;
* `app/services/similarity.py` — shared cosine helper;
* `app/routes/recommend.py` — personalization profile, diversity penalty,
  popularity fallback.

Machine floats are modelled as exact numbers: `ℚ` where the code only
compares and adds (distances, weights, scores, clock times), `ℝ` where a
square root is taken (cosine similarity).  Python strings are Lean
`String`s (`data` gives the character list).  Fallible service calls are
modelled by oracle fields in explicit "world" structures, one outcome per
call site, mirroring each `try/except` of the source.
-/

/- ---------------------------------------------------------------------
   Datapoint-id codec (multi_image_index.py).
   Encoding (rebuild, line 78):  datapoint_id = f"{pid}_{position}".
   Decoding (search, line 317):  parts = datapoint_id.rsplit("_", 1);
   ids that do not split into exactly two parts are skipped.
--------------------------------------------------------------------- -/

/-- Split a character list at its last underscore, returning the parts
before and after it; `none` when no underscore occurs.  This embeds
Python's `s.rsplit("_", 1)` restricted to the two-part success case. -/
def rsplitUnderscore : List Char → Option (List Char × List Char)
  | [] => none
  | c :: cs =>
    match rsplitUnderscore cs with
    | some (l, r) => some (c :: l, r)
    | none => if c = '_' then some ([], cs) else none

/-- `f"{pid}_{position}"` from `rebuild_image_index_multi` (line 78),
with the position a non-negative integer rendered in decimal. -/
def encodeDatapointId (pid : String) (position : Nat) : String :=
  pid ++ "_" ++ Nat.repr position

/-- `datapoint_id.rsplit("_", 1)` as used by `search_by_image_multi`
(lines 317-321): the decoded entity id is the part before the last
underscore; malformed ids yield `none` (no exception). -/
def decodeDatapointId (s : String) : Option (String × String) :=
  (rsplitUnderscore s.data).map (fun p => (String.mk p.1, String.mk p.2))

theorem rsplitUnderscore_eq_none {l : List Char} (h : '_' ∉ l) :
    rsplitUnderscore l = none := by
  induction l with
  | nil => rfl
  | cons c cs ih =>
    simp only [List.mem_cons, not_or] at h
    simp only [rsplitUnderscore, ih h.2]
    simp [Ne.symm h.1]

theorem rsplitUnderscore_append {l r : List Char} (h : '_' ∉ r) :
    rsplitUnderscore (l ++ '_' :: r) = some (l, r) := by
  induction l with
  | nil => simp [rsplitUnderscore, rsplitUnderscore_eq_none h]
  | cons c cs ih => simp [rsplitUnderscore, ih]

theorem digitChar_ne_underscore {n : ℕ} (h : n < 10) :
    Nat.digitChar n ≠ '_' := by
  interval_cases n <;> decide

theorem toDigitsCore_no_underscore :
    ∀ (fuel n : ℕ) (ds : List Char), (∀ c ∈ ds, c ≠ '_') →
      ∀ c ∈ Nat.toDigitsCore 10 fuel n ds, c ≠ '_' := by
  intro fuel
  induction fuel with
  | zero => intro n ds hds; simpa [Nat.toDigitsCore] using hds
  | succ fuel ih =>
    intro n ds hds c hc
    simp only [Nat.toDigitsCore] at hc
    by_cases h10 : n / 10 = 0
    · rw [if_pos h10] at hc
      rcases List.mem_cons.mp hc with h | h
      · subst h; exact digitChar_ne_underscore (Nat.mod_lt _ (by norm_num))
      · exact hds c h
    · rw [if_neg h10] at hc
      refine ih (n / 10) _ ?_ c hc
      intro d hd
      rcases List.mem_cons.mp hd with h | h
      · subst h; exact digitChar_ne_underscore (Nat.mod_lt _ (by norm_num))
      · exact hds d h

theorem repr_no_underscore (n : ℕ) : '_' ∉ (Nat.repr n).data := by
  intro hmem
  have h : ∀ c ∈ Nat.toDigits 10 n, c ≠ '_' :=
    toDigitsCore_no_underscore (n + 1) n [] (by simp)
  exact h '_' (by simpa [Nat.repr, Nat.toDigits, List.asString] using hmem) rfl

theorem string_mk_data (s : String) : String.mk s.data = s := rfl

/-- **C5** — Datapoint Codec round-trip: for any entity id containing no
underscore and any non-negative integer position, decoding the encoded
datapoint id `"{entity_id}_{position}"` by splitting on the last
underscore returns exactly the original pair (the position as its decimal
rendering, which is how the code carries it); a datapoint id containing
no underscore does not split into two parts and fails to decode with
`none` rather than an exception. -/
theorem c5_codec_roundtrip :
    (∀ (pid : String) (position : Nat), '_' ∉ pid.data →
      decodeDatapointId (encodeDatapointId pid position) =
        some (pid, Nat.repr position)) ∧
    (∀ s : String, '_' ∉ s.data → decodeDatapointId s = none) := by
  constructor
  · intro pid position hpid
    have hdata : (encodeDatapointId pid position).data =
        pid.data ++ '_' :: (Nat.repr position).data := by
      simp [encodeDatapointId, String.data_append]
    simp only [decodeDatapointId, hdata,
      rsplitUnderscore_append (repr_no_underscore position), Option.map_some']
  · intro s hs
    simp [decodeDatapointId, rsplitUnderscore_eq_none hs]

theorem c5_codec_roundtrip_witness :
    '_' ∉ "abc".data ∧
      decodeDatapointId (encodeDatapointId "abc" 42) =
        some ("abc", Nat.repr 42) := by
  refine ⟨by decide, c5_codec_roundtrip.1 "abc" 42 (by decide)⟩

/- ---------------------------------------------------------------------
   Candidate aggregator (search_by_image_multi, lines 303-324).
   The neighbor list is first re-sorted by (distance, datapoint_id),
   then each datapoint id is decoded and entities are deduplicated
   keeping the first occurrence; undecodable ids are skipped.
--------------------------------------------------------------------- -/

/-- Lexicographic strict comparison of character sequences by code
point: exactly Python's `<` on strings. -/
def lexLt : List Char → List Char → Bool
  | [], [] => false
  | [], _ :: _ => true
  | _ :: _, [] => false
  | a :: as, b :: bs =>
    if a < b then true else if a = b then lexLt as bs else false

/-- Lexicographic non-strict comparison: Python's `<=` on strings. -/
def lexLe : List Char → List Char → Bool
  | [], _ => true
  | _ :: _, [] => false
  | a :: as, b :: bs =>
    if a < b then true else if a = b then lexLe as bs else false

/-- Python `s < t` on strings (code-point lexicographic). -/
def strLt (s t : String) : Bool := lexLt s.data t.data

/-- Python `s <= t` on strings (code-point lexicographic). -/
def strLe (s t : String) : Bool := lexLe s.data t.data

theorem lexLe_total : ∀ as bs : List Char, lexLe as bs = true ∨ lexLe bs as = true := by
  intro as
  induction as with
  | nil => intro bs; exact Or.inl rfl
  | cons a as ih =>
    intro bs
    cases bs with
    | nil => exact Or.inr rfl
    | cons b bs =>
      rcases lt_trichotomy a b with h | h | h
      · left; simp [lexLe, h]
      · subst h
        rcases ih bs with h' | h' <;> simp [lexLe, h', lt_irrefl]
      · right; simp [lexLe, h]

theorem lexLe_trans : ∀ as bs cs : List Char,
    lexLe as bs = true → lexLe bs cs = true → lexLe as cs = true := by
  intro as
  induction as with
  | nil => intro bs cs _ _; rfl
  | cons a as ih =>
    intro bs cs h1 h2
    cases bs with
    | nil => simp [lexLe] at h1
    | cons b bs =>
      cases cs with
      | nil => simp [lexLe] at h2
      | cons c cs =>
        simp only [lexLe] at h1 h2 ⊢
        by_cases hab : a < b
        · by_cases hbc : b < c
          · simp [hab.trans hbc]
          · by_cases hbc' : b = c
            · simp [hbc' ▸ hab]
            · simp [hbc, hbc'] at h2
        · by_cases hab' : a = b
          · subst hab'
            by_cases hac : a < c
            · simp [hac]
            · by_cases hac' : a = c
              · subst hac'
                simp [lt_irrefl] at h1 h2 ⊢
                exact ih bs cs h1 h2
              · simp [hac, hac'] at h2
          · simp [hab, hab'] at h1

theorem lexLe_antisymm : ∀ as bs : List Char,
    lexLe as bs = true → lexLe bs as = true → as = bs := by
  intro as
  induction as with
  | nil =>
    intro bs _ h2
    cases bs with
    | nil => rfl
    | cons b bs => simp [lexLe] at h2
  | cons a as ih =>
    intro bs h1 h2
    cases bs with
    | nil => simp [lexLe] at h1
    | cons b bs =>
      simp only [lexLe] at h1 h2
      by_cases hab : a < b
      · simp [asymm hab, (ne_of_lt hab).symm] at h2
      · by_cases hab' : a = b
        · subst hab'
          simp [lt_irrefl] at h1 h2
          exact congrArg _ (ih bs h1 h2)
        · simp [hab, hab'] at h1

theorem lexLt_eq_not_lexLe : ∀ as bs : List Char,
    lexLt as bs = !lexLe bs as := by
  intro as
  induction as with
  | nil => intro bs; cases bs <;> simp [lexLt, lexLe]
  | cons a as ih =>
    intro bs
    cases bs with
    | nil => simp [lexLt, lexLe]
    | cons b bs =>
      simp only [lexLt, lexLe]
      rcases lt_trichotomy a b with h | h | h
      · simp [h, asymm h, (ne_of_lt h).symm]
      · subst h; simp [lt_irrefl, ih bs]
      · simp [h, asymm h, ne_of_lt h, (ne_of_gt h)]

/-- `key=lambda x: (x[1], x[0])` of the neighbor canonical sort
(line 304-307), as a ≤-style relation for the stable sort. -/
def neighborLE (x y : String × ℚ) : Prop :=
  x.2 < y.2 ∨ (x.2 = y.2 ∧ strLe x.1 y.1 = true)

instance : DecidableRel neighborLE := fun x y =>
  inferInstanceAs (Decidable (x.2 < y.2 ∨ (x.2 = y.2 ∧ strLe x.1 y.1 = true)))

theorem strLe_total (s t : String) : strLe s t = true ∨ strLe t s = true :=
  lexLe_total s.data t.data

theorem strLe_trans {s t u : String} (h1 : strLe s t = true)
    (h2 : strLe t u = true) : strLe s u = true :=
  lexLe_trans s.data t.data u.data h1 h2

theorem strLe_antisymm {s t : String} (h1 : strLe s t = true)
    (h2 : strLe t s = true) : s = t := by
  cases s; cases t
  exact congrArg String.mk (lexLe_antisymm _ _ h1 h2)

theorem strLt_eq_not_strLe (s t : String) : strLt s t = !strLe t s :=
  lexLt_eq_not_lexLe s.data t.data

instance : IsTotal (String × ℚ) neighborLE :=
  ⟨fun x y => by
    rcases lt_trichotomy x.2 y.2 with h | h | h
    · exact Or.inl (Or.inl h)
    · rcases strLe_total x.1 y.1 with h1 | h1
      · exact Or.inl (Or.inr ⟨h, h1⟩)
      · exact Or.inr (Or.inr ⟨h.symm, h1⟩)
    · exact Or.inr (Or.inl h)⟩

instance : IsTrans (String × ℚ) neighborLE :=
  ⟨fun x y z hxy hyz => by
    rcases hxy with h | ⟨he, h1⟩
    · rcases hyz with h' | ⟨he', _⟩
      · exact Or.inl (h.trans h')
      · exact Or.inl (he' ▸ h)
    · rcases hyz with h' | ⟨he', h1'⟩
      · exact Or.inl (he ▸ h')
      · exact Or.inr ⟨he.trans he', strLe_trans h1 h1'⟩⟩

instance : IsAntisymm (String × ℚ) neighborLE :=
  ⟨fun x y hxy hyx => by
    rcases hxy with h | ⟨he, h1⟩
    · rcases hyx with h' | ⟨he', _⟩
      · exact absurd (h.trans h') (lt_irrefl _)
      · exact absurd h (he' ▸ lt_irrefl _)
    · rcases hyx with h' | ⟨he', h1'⟩
      · exact absurd h' (he ▸ lt_irrefl _)
      · exact Prod.ext (strLe_antisymm h1 h1') he⟩

/-- The canonical, deterministic neighbor ordering (lines 304-307):
a stable sort by `(distance, datapoint_id)`. -/
def canonNeighbors (ns : List (String × ℚ)) : List (String × ℚ) :=
  ns.insertionSort neighborLE

/-- One step of the candidate-aggregation loop (lines 316-324): decode
the datapoint id, skip on failure, and append the entity id unless it
was already seen (the code's `seen` set always equals the set of ids
already in the accumulator list). -/
def candStep (acc : List String) (n : String × ℚ) : List String :=
  match decodeDatapointId n.1 with
  | none => acc
  | some p => if p.1 ∈ acc then acc else acc ++ [p.1]

/-- `candidate_product_ids` of `search_by_image_multi`. -/
def aggregateCandidates (ns : List (String × ℚ)) : List String :=
  (canonNeighbors ns).foldl candStep []

/-- Specification-level deduplication: keep each value's first
occurrence, in order of first occurrence. -/
def firstSeen : List String → List String
  | [] => []
  | a :: l => a :: firstSeen (l.filter (fun b => b ≠ a))
termination_by l => l.length
decreasing_by
  simp only [List.length_cons]
  exact Nat.lt_succ_of_le (List.length_filter_le _ _)

theorem firstSeen_subset : ∀ l x, x ∈ firstSeen l → x ∈ l := by
  intro l
  induction l using firstSeen.induct with
  | case1 => intro x hx; simp [firstSeen] at hx
  | case2 a l ih =>
    intro x hx
    rw [firstSeen] at hx
    rcases List.mem_cons.mp hx with h | h
    · exact h ▸ List.mem_cons_self _ _
    · exact List.mem_cons_of_mem _ (List.mem_of_mem_filter (ih x h))

theorem firstSeen_nodup : ∀ l, (firstSeen l).Nodup := by
  intro l
  induction l using firstSeen.induct with
  | case1 => simp [firstSeen]
  | case2 a l ih =>
    rw [firstSeen]
    refine List.nodup_cons.mpr ⟨fun hmem => ?_, ih⟩
    have := firstSeen_subset _ _ hmem
    simp at this

theorem foldl_candStep_decoded (ns : List (String × ℚ)) (acc : List String) :
    ns.foldl candStep acc =
      (ns.filterMap (fun n => (decodeDatapointId n.1).map Prod.fst)).foldl
        (fun acc pid => if pid ∈ acc then acc else acc ++ [pid]) acc := by
  induction ns generalizing acc with
  | nil => rfl
  | cons n ns ih =>
    cases h : decodeDatapointId n.1 with
    | none => simp [candStep, h, ih]
    | some p => simp [candStep, h, ih]

theorem firstSeen_congr_filter {l : List String} {p q : String → Bool}
    (h : ∀ b ∈ l, p b = q b) : firstSeen (l.filter p) = firstSeen (l.filter q) := by
  rw [List.filter_congr h]

theorem foldl_dedup_eq_firstSeen (l : List String) :
    ∀ acc : List String,
      l.foldl (fun acc pid => if pid ∈ acc then acc else acc ++ [pid]) acc =
        acc ++ firstSeen (l.filter (fun b => b ∉ acc)) := by
  induction l with
  | nil => intro acc; simp [firstSeen]
  | cons a l ih =>
    intro acc
    by_cases ha : a ∈ acc
    · simp only [List.foldl_cons, if_pos ha, List.filter_cons]
      rw [if_neg (by simpa using ha), ih acc]
    · have hfilter :
          (l.filter (fun b => b ∉ acc)).filter (fun b => b ≠ a) =
            l.filter (fun b => b ∉ acc ++ [a]) := by
        rw [List.filter_filter]
        refine List.filter_congr ?_
        intro b _
        by_cases hba : b = a <;> by_cases hbacc : b ∈ acc <;>
          simp [hba, hbacc]
      simp only [List.foldl_cons, if_neg ha, List.filter_cons]
      rw [if_pos (by simpa using ha), ih (acc ++ [a]), firstSeen, ← hfilter]
      simp

/-- **C7** — the Candidate Aggregator maps the ANN neighbor list to an
ordered list of unique entity ids: after the canonical
(distance, datapoint id) re-sort, each datapoint id is decoded to its
entity id, ids that fail to decode are dropped without aborting, and
duplicate entities keep only their first (nearest-by-distance)
occurrence; on the neighbors `A_1` at 0.1, `B_1` at 0.2, `A_2` at 0.15
the output is exactly `A, B`. -/
theorem c7_candidate_aggregator :
    (∀ ns : List (String × ℚ),
      aggregateCandidates ns =
        firstSeen ((canonNeighbors ns).filterMap
          (fun n => (decodeDatapointId n.1).map Prod.fst)) ∧
      (aggregateCandidates ns).Nodup) ∧
    aggregateCandidates [("A_1", 1/10), ("B_1", 2/10), ("A_2", 15/100)] =
      ["A", "B"] := by
  have hchar : ∀ ns : List (String × ℚ),
      aggregateCandidates ns =
        firstSeen ((canonNeighbors ns).filterMap
          (fun n => (decodeDatapointId n.1).map Prod.fst)) := by
    intro ns
    rw [aggregateCandidates, foldl_candStep_decoded, foldl_dedup_eq_firstSeen]
    simp
  refine ⟨fun ns => ⟨hchar ns, ?_⟩, ?_⟩
  · rw [hchar ns]
    exact firstSeen_nodup _
  · norm_num +decide [aggregateCandidates, canonNeighbors, candStep,
      List.insertionSort, List.orderedInsert, decodeDatapointId,
      rsplitUnderscore, neighborLE, strLe, lexLe]

/- ---------------------------------------------------------------------
   Cosine similarity.
   * `cosine_similarity` embeds app/services/similarity.py (lines 3-9):
     dot(a,b) / (norm(a) * norm(b)), 0.0 when the denominator is 0.
   * `cosineMulti` embeds the local `_cosine` helper of
     `search_by_image_multi` (lines 336-354): the loop runs over the
     first `min(len(a), len(b))` components, returns 0.0 when that
     length is 0 or when either truncated sum of squares is 0, and
     otherwise divides by sqrt(sa) * sqrt(sb).
--------------------------------------------------------------------- -/

/-- Sum of squares of a vector's components (`np.linalg.norm` squared,
and the `sa`/`sb` accumulators of `_cosine`). -/
def sumSq (v : List ℝ) : ℝ :=
  (v.map fun x => x * x).sum

/-- `np.linalg.norm` — the Euclidean norm. -/
noncomputable def listNorm (v : List ℝ) : ℝ :=
  Real.sqrt (sumSq v)

/-- `np.dot` on 1-D arrays / the `dot` accumulator of `_cosine`:
componentwise products summed over the common prefix. -/
def npDot (a b : List ℝ) : ℝ :=
  (List.zipWith (fun x y => x * y) a b).sum

/-- `cosine_similarity` of app/services/similarity.py. -/
noncomputable def cosine_similarity (a b : List ℝ) : ℝ :=
  if listNorm a * listNorm b = 0 then 0
  else npDot a b / (listNorm a * listNorm b)

/-- `_cosine` of `search_by_image_multi`. -/
noncomputable def cosineMulti (a b : List ℝ) : ℝ :=
  let n := min a.length b.length
  if n = 0 then 0
  else
    let sa := sumSq (a.take n)
    let sb := sumSq (b.take n)
    if sa = 0 ∨ sb = 0 then 0
    else npDot a b / (Real.sqrt sa * Real.sqrt sb)

theorem sumSq_nonneg (v : List ℝ) : 0 ≤ sumSq v :=
  List.sum_nonneg (by
    intro z hz
    rcases List.mem_map.mp hz with ⟨w, _, rfl⟩
    exact mul_self_nonneg w)

theorem sumSq_eq_zero {v : List ℝ} (h : ∀ x ∈ v, x = 0) : sumSq v = 0 :=
  List.sum_eq_zero (by
    intro z hz
    rcases List.mem_map.mp hz with ⟨w, hw, rfl⟩
    rw [h w hw, mul_zero])

theorem sumSq_pos {v : List ℝ} (h : ∃ x ∈ v, x ≠ 0) : 0 < sumSq v := by
  rcases h with ⟨x, hx, hx0⟩
  have hmem : x * x ∈ v.map fun x => x * x := List.mem_map.mpr ⟨x, hx, rfl⟩
  have hle : x * x ≤ sumSq v :=
    List.single_le_sum (by
      intro z hz
      rcases List.mem_map.mp hz with ⟨w, _, rfl⟩
      exact mul_self_nonneg w) _ hmem
  exact lt_of_lt_of_le (mul_self_pos.mpr hx0) hle

/-- Cauchy–Schwarz for list dot products (lengths may differ: the dot
product runs over the common prefix and the norms only grow). -/
theorem listDotSq_le : ∀ a b : List ℝ,
    (npDot a b) ^ 2 ≤ sumSq a * sumSq b := by
  intro a
  induction a with
  | nil => intro b; simp [npDot, sumSq]
  | cons x a ih =>
    intro b
    cases b with
    | nil => simp [npDot, sumSq]
    | cons y b =>
      have hIH := ih b
      have hSa : 0 ≤ sumSq a := sumSq_nonneg a
      have hSb : 0 ≤ sumSq b := sumSq_nonneg b
      simp only [npDot, sumSq, List.zipWith_cons_cons, List.map_cons,
        List.sum_cons] at hIH ⊢
      set d := (List.zipWith (fun x y => x * y) a b).sum with hd
      set Sa := (a.map fun x => x * x).sum with hsa
      set Sb := (b.map fun x => x * x).sum with hsb
      simp only [sumSq, ← hsa, ← hsb] at hSa hSb
      rcases eq_or_lt_of_le hSb with hSb0 | hSbpos
      · have hd0 : d = 0 := by
          have h2 : d ^ 2 ≤ 0 := by rw [← hSb0] at hIH; simpa using hIH
          have h3 : d ^ 2 = 0 := le_antisymm h2 (sq_nonneg d)
          exact pow_eq_zero_iff (n := 2) (by norm_num) |>.mp h3
        rw [hd0, ← hSb0]
        nlinarith [mul_nonneg hSa (sq_nonneg y), sq_nonneg (x * y)]
      · nlinarith [sq_nonneg (x * Sb - y * d),
          mul_nonneg (sub_nonneg.2 hIH) (sq_nonneg y),
          mul_nonneg (sub_nonneg.2 hIH) hSb, hSbpos]

/-- **C6** — cosine similarity returns exactly 0 whenever either input
vector has zero norm (a defined value, not an error), in BOTH
implementations (the shared helper and the re-ranker's local `_cosine`),
so a zero-norm vector yields remapped similarity `(cos+1)/2` exactly
0.5; and for any two non-zero vectors of equal length (`np.dot` requires
equal shapes) the remapped similarity lies in `[0, 1]`. -/
theorem c6_cosine_zero_norm_and_bounds :
    (∀ a b : List ℝ, ((∀ x ∈ a, x = 0) ∨ (∀ x ∈ b, x = 0)) →
      cosine_similarity a b = 0 ∧ cosineMulti a b = 0 ∧
      (cosine_similarity a b + 1) / 2 = 1 / 2 ∧
      (cosineMulti a b + 1) / 2 = 1 / 2) ∧
    (∀ a b : List ℝ, a.length = b.length →
      (∃ x ∈ a, x ≠ 0) → (∃ x ∈ b, x ≠ 0) →
      0 ≤ (cosine_similarity a b + 1) / 2 ∧
        (cosine_similarity a b + 1) / 2 ≤ 1) := by
  constructor
  · intro a b h
    have hsim : cosine_similarity a b = 0 := by
      rcases h with h | h
      · have : listNorm a = 0 := by
          rw [listNorm, sumSq_eq_zero h, Real.sqrt_zero]
        rw [cosine_similarity, if_pos (by rw [this, zero_mul])]
      · have : listNorm b = 0 := by
          rw [listNorm, sumSq_eq_zero h, Real.sqrt_zero]
        rw [cosine_similarity, if_pos (by rw [this, mul_zero])]
    have hmulti : cosineMulti a b = 0 := by
      rw [cosineMulti]
      by_cases hn : min a.length b.length = 0
      · simp [hn]
      · rcases h with h | h
        · have hz : sumSq (a.take (min a.length b.length)) = 0 :=
            sumSq_eq_zero (fun x hx => h x (List.take_subset _ _ hx))
          simp only [if_neg hn]
          rw [if_pos (Or.inl hz)]
        · have hz : sumSq (b.take (min a.length b.length)) = 0 :=
            sumSq_eq_zero (fun x hx => h x (List.take_subset _ _ hx))
          simp only [if_neg hn]
          rw [if_pos (Or.inr hz)]
    exact ⟨hsim, hmulti, by rw [hsim]; norm_num, by rw [hmulti]; norm_num⟩
  · intro a b _ ha hb
    have hSa : 0 < sumSq a := sumSq_pos ha
    have hSb : 0 < sumSq b := sumSq_pos hb
    have hna : 0 < listNorm a := Real.sqrt_pos.mpr hSa
    have hnb : 0 < listNorm b := Real.sqrt_pos.mpr hSb
    have hden : 0 < listNorm a * listNorm b := mul_pos hna hnb
    have hdot : |npDot a b| ≤ listNorm a * listNorm b := by
      have h1 : |npDot a b| = Real.sqrt ((npDot a b) ^ 2) :=
        (Real.sqrt_sq_eq_abs _).symm
      have h2 : Real.sqrt ((npDot a b) ^ 2) ≤ Real.sqrt (sumSq a * sumSq b) :=
        Real.sqrt_le_sqrt (listDotSq_le a b)
      have h3 : Real.sqrt (sumSq a * sumSq b) = listNorm a * listNorm b := by
        rw [listNorm, listNorm, ← Real.sqrt_mul (le_of_lt hSa)]
      rw [h1, ← h3]
      exact h2
    have habs : |cosine_similarity a b| ≤ 1 := by
      rw [cosine_similarity, if_neg (ne_of_gt hden), abs_div,
        abs_of_pos hden]
      exact (div_le_one hden).mpr hdot
    rcases abs_le.mp habs with ⟨hlo, hhi⟩
    constructor <;> linarith

theorem c6_cosine_witness :
    ((∀ x ∈ ([0] : List ℝ), x = 0) ∨ (∀ x ∈ ([1, 1] : List ℝ), x = 0)) ∧
    cosine_similarity [(0 : ℝ)] [1, 1] = 0 ∧
    (cosineMulti [(0 : ℝ)] [1, 1] + 1) / 2 = 1 / 2 ∧
    ([(1 : ℝ), 0].length = [(0 : ℝ), 1].length) ∧
    0 ≤ (cosine_similarity [(1 : ℝ), 0] [0, 1] + 1) / 2 ∧
    (cosine_similarity [(1 : ℝ), 0] [0, 1] + 1) / 2 ≤ 1 := by
  have h1 := c6_cosine_zero_norm_and_bounds.1 [(0 : ℝ)] [1, 1]
    (Or.inl (by simp))
  have h2 := c6_cosine_zero_norm_and_bounds.2 [(1 : ℝ), 0] [0, 1] rfl
    ⟨1, by simp, one_ne_zero⟩ ⟨1, by simp, one_ne_zero⟩
  exact ⟨Or.inl (by simp), h1.1, h1.2.2.2, rfl, h2.1, h2.2⟩

/- ---------------------------------------------------------------------
   Exact re-ranker (search_by_image_multi, lines 356-406).
   For each candidate entity the stored image documents are read sorted
   by position and limited to per_product_rerank; each document is
   scored by cosine, remapped to similarity (cos+1)/2 and distance
   1-cos, and a single best Sub-item is kept per entity; the surviving
   entities are filtered by min_similarity, sorted by
   (-similarity, distance, datapoint_id) and truncated to top_k.
--------------------------------------------------------------------- -/

theorem lexLe_refl : ∀ as : List Char, lexLe as as = true := by
  intro as
  induction as with
  | nil => rfl
  | cons a as ih => simp [lexLe, lt_irrefl, ih]

theorem strLe_refl (s : String) : strLe s s = true := lexLe_refl s.data

theorem strLe_of_not_strLt {s t : String} (h : strLt s t = false) :
    strLe t s = true := by
  have := strLt_eq_not_strLe s t
  rw [h] at this
  exact (Bool.not_eq_false' _).mp this.symm

theorem strLe_of_strLt {s t : String} (h : strLt s t = true) :
    strLe s t = true := by
  have heq := strLt_eq_not_strLe s t
  rw [h] at heq
  have hfalse : strLe t s = false := by
    cases hst : strLe t s
    · rfl
    · rw [hst] at heq; simp at heq
  rcases strLe_total s t with h' | h'
  · exact h'
  · rw [h'] at hfalse; cases hfalse

/-- A stored image document of the `product_image_embeddings`
collection, as read back by the re-ranker (line 361-364). -/
structure ImgDoc where
  datapoint_id : String
  embedding : List ℝ
  image_url : String
  position : ℤ

/-- The candidate record built for one stored image (lines 374-380). -/
structure ScoredSub where
  similarity : ℝ
  distance : ℝ
  matched_image_url : String
  position : ℤ
  datapoint_id : String

/-- Mongo `.sort("position", 1)` as a stable sort key. -/
def posLE (d e : ImgDoc) : Prop := d.position ≤ e.position

instance : DecidableRel posLE := fun d e =>
  inferInstanceAs (Decidable (d.position ≤ e.position))

/-- The per-entity document fetch (lines 361-364): stored docs for the
product, sorted by position ascending, limited to `per_product_rerank`. -/
def docsFor (store : String → List ImgDoc) (pr : ℕ) (pid : String) :
    List ImgDoc :=
  ((store pid).insertionSort posLE).take pr

/-- Scoring one stored image against the query (lines 370-380):
`cos` via the local `_cosine`, similarity `(cos+1)/2`, distance `1-cos`. -/
noncomputable def scoreDoc (q : List ℝ) (d : ImgDoc) : ScoredSub :=
  { similarity := (cosineMulti q d.embedding + 1) / 2
    distance := 1 - cosineMulti q d.embedding
    matched_image_url := d.image_url
    position := d.position
    datapoint_id := d.datapoint_id }

/-- The candidates actually scored: documents with a non-empty
embedding (`if not emb: continue`, line 367-369). -/
noncomputable def scoredSubs (q : List ℝ) (docs : List ImgDoc) :
    List ScoredSub :=
  (docs.filter (fun d => !d.embedding.isEmpty)).map (scoreDoc q)

/-- The replacement condition of the best-Sub-item loop (lines 381-383):
the new candidate wins on strictly higher similarity, or on equal
similarity with lower distance or lexicographically smaller datapoint
id. -/
def newBestWins (cand b : ScoredSub) : Prop :=
  cand.similarity > b.similarity ∨
    (cand.similarity = b.similarity ∧
      (cand.distance < b.distance ∨
        strLt cand.datapoint_id b.datapoint_id = true))

noncomputable instance : ∀ c b, Decidable (newBestWins c b) := fun c b =>
  inferInstanceAs (Decidable (_ ∨ _))

/-- One iteration of the best-Sub-item loop (lines 366-384): skip
documents with an empty embedding, otherwise score and possibly replace
the running best. -/
noncomputable def bestStep (q : List ℝ) (best : Option ScoredSub)
    (d : ImgDoc) : Option ScoredSub :=
  if d.embedding.isEmpty then best
  else
    match best with
    | none => some (scoreDoc q d)
    | some b => if newBestWins (scoreDoc q d) b then some (scoreDoc q d) else some b

/-- The single best Sub-item kept for one entity. -/
noncomputable def bestSub (q : List ℝ) (docs : List ImgDoc) :
    Option ScoredSub :=
  docs.foldl (bestStep q) none

/-- The claim's deterministic rank order on Sub-items: strictly higher
similarity first, then lower distance, then lexicographically smaller
datapoint id. -/
def subRankLE (b c : ScoredSub) : Prop :=
  c.similarity < b.similarity ∨
  (b.similarity = c.similarity ∧
    (b.distance < c.distance ∨
      (b.distance = c.distance ∧ strLe b.datapoint_id c.datapoint_id = true)))

theorem subRankLE_refl (b : ScoredSub) : subRankLE b b :=
  Or.inr ⟨rfl, Or.inr ⟨rfl, strLe_refl _⟩⟩

theorem subRankLE_trans {a b c : ScoredSub}
    (h1 : subRankLE a b) (h2 : subRankLE b c) : subRankLE a c := by
  rcases h1 with h1 | ⟨e1, h1⟩
  · rcases h2 with h2 | ⟨e2, _⟩
    · exact Or.inl (h2.trans h1)
    · exact Or.inl (e2 ▸ h1)
  · rcases h2 with h2 | ⟨e2, h2⟩
    · exact Or.inl (e1 ▸ h2)
    · refine Or.inr ⟨e1.trans e2, ?_⟩
      rcases h1 with h1 | ⟨d1, h1⟩
      · rcases h2 with h2 | ⟨d2, _⟩
        · exact Or.inl (h1.trans h2)
        · exact Or.inl (d2 ▸ h1)
      · rcases h2 with h2 | ⟨d2, h2⟩
        · exact Or.inl (d1 ▸ h2)
        · exact Or.inr ⟨d1.trans d2, strLe_trans h1 h2⟩

theorem subRankLE_total (b c : ScoredSub) : subRankLE b c ∨ subRankLE c b := by
  rcases lt_trichotomy b.similarity c.similarity with h | h | h
  · exact Or.inr (Or.inl h)
  · rcases lt_trichotomy b.distance c.distance with hd | hd | hd
    · exact Or.inl (Or.inr ⟨h, Or.inl hd⟩)
    · rcases strLe_total b.datapoint_id c.datapoint_id with hs | hs
      · exact Or.inl (Or.inr ⟨h, Or.inr ⟨hd, hs⟩⟩)
      · exact Or.inr (Or.inr ⟨h.symm, Or.inr ⟨hd.symm, hs⟩⟩)
    · exact Or.inr (Or.inr ⟨h.symm, Or.inl hd⟩)
  · exact Or.inl (Or.inl h)

/-- Within one scored candidate the reported distance is an affine
function of the reported similarity (both derive from the same cosine):
`distance = 2 - 2 * similarity`. -/
def distConsistent (x : ScoredSub) : Prop :=
  x.distance = 2 - 2 * x.similarity

theorem scoreDoc_distConsistent (q : List ℝ) (d : ImgDoc) :
    distConsistent (scoreDoc q d) := by
  simp only [distConsistent, scoreDoc]
  ring

theorem mem_scoredSubs_distConsistent {q : List ℝ} {docs : List ImgDoc}
    {x : ScoredSub} (h : x ∈ scoredSubs q docs) : distConsistent x := by
  rcases List.mem_map.mp h with ⟨d, _, rfl⟩
  exact scoreDoc_distConsistent q d

theorem newBestWins_subRankLE {c b : ScoredSub} (hb : distConsistent b)
    (hc : distConsistent c) (h : newBestWins c b) : subRankLE c b := by
  rcases h with h | ⟨he, h⟩
  · exact Or.inl h
  · rcases h with h | h
    · exact Or.inr ⟨he, Or.inl h⟩
    · refine Or.inr ⟨he, Or.inr ⟨?_, strLe_of_strLt h⟩⟩
      rw [hc, hb, he]

theorem not_newBestWins_subRankLE {c b : ScoredSub} (hb : distConsistent b)
    (hc : distConsistent c) (h : ¬ newBestWins c b) : subRankLE b c := by
  rw [newBestWins] at h
  push_neg at h
  obtain ⟨h1, h2⟩ := h
  rcases lt_or_eq_of_le h1 with hlt | heq
  · exact Or.inl hlt
  · obtain ⟨h3, h4⟩ := h2 heq
    refine Or.inr ⟨heq.symm, Or.inr ⟨?_, ?_⟩⟩
    · rw [hc, hb, heq]
    · exact strLe_of_not_strLt (Bool.not_eq_true _ ▸ h4 : strLt _ _ = false)

theorem scoredSubs_cons_empty {q : List ℝ} {d : ImgDoc} {docs : List ImgDoc}
    (h : d.embedding.isEmpty = true) :
    scoredSubs q (d :: docs) = scoredSubs q docs := by
  simp [scoredSubs, List.filter_cons, h]

theorem scoredSubs_cons_full {q : List ℝ} {d : ImgDoc} {docs : List ImgDoc}
    (h : ¬ d.embedding.isEmpty = true) :
    scoredSubs q (d :: docs) = scoreDoc q d :: scoredSubs q docs := by
  simp only [scoredSubs, List.filter_cons]
  rw [if_pos (by simp [h])]
  rfl

theorem bestSub_fold (q : List ℝ) :
    ∀ (docs : List ImgDoc) (acc : Option ScoredSub),
      (∀ b, acc = some b → distConsistent b) →
      (docs.foldl (bestStep q) acc = none →
          acc = none ∧ scoredSubs q docs = []) ∧
      (∀ r, docs.foldl (bestStep q) acc = some r →
          distConsistent r ∧
          (r ∈ scoredSubs q docs ∨ acc = some r) ∧
          (∀ c ∈ scoredSubs q docs, subRankLE r c) ∧
          (∀ b, acc = some b → subRankLE r b)) := by
  intro docs
  induction docs with
  | nil =>
    intro acc hacc
    constructor
    · intro h
      exact ⟨h, rfl⟩
    · intro r hr
      simp only [List.foldl_nil] at hr
      refine ⟨hacc r hr, Or.inr hr, ?_, ?_⟩
      · intro c hc; simp [scoredSubs] at hc
      · intro b hb
        rw [hr] at hb
        cases hb
        exact subRankLE_refl r
  | cons d docs ih =>
    intro acc hacc
    by_cases hemp : d.embedding.isEmpty = true
    · have hstep : bestStep q acc d = acc := by simp [bestStep, hemp]
      have := ih acc hacc
      constructor
      · intro h
        rw [List.foldl_cons, hstep] at h
        exact ⟨(this.1 h).1, by rw [scoredSubs_cons_empty hemp, (this.1 h).2]⟩
      · intro r hr
        rw [List.foldl_cons, hstep] at hr
        obtain ⟨h1, h2, h3, h4⟩ := this.2 r hr
        rw [scoredSubs_cons_empty hemp]
        exact ⟨h1, h2, h3, h4⟩
    · have hscons := @scoredSubs_cons_full q d docs hemp
      cases hamatch : acc with
      | none =>
        have hstep : bestStep q none d = some (scoreDoc q d) := by
          simp [bestStep, hemp]
        have hih := ih (some (scoreDoc q d))
          (by intro b hb; cases hb; exact scoreDoc_distConsistent q d)
        constructor
        · intro h
          rw [List.foldl_cons, hstep] at h
          rcases (hih.1 h).1 with h'
          cases h'
        · intro r hr
          rw [List.foldl_cons, hstep] at hr
          obtain ⟨h1, h2, h3, h4⟩ := hih.2 r hr
          refine ⟨h1, ?_, ?_, ?_⟩
          · rcases h2 with h2 | h2
            · exact Or.inl (hscons ▸ List.mem_cons_of_mem _ h2)
            · cases h2
              exact Or.inl (hscons ▸ List.mem_cons_self _ _)
          · intro c hc
            rw [hscons] at hc
            rcases List.mem_cons.mp hc with hc | hc
            · exact hc ▸ h4 _ rfl
            · exact h3 c hc
          · intro b hb
            cases hb
      | some b0 =>
        have hb0 : distConsistent b0 := hacc b0 hamatch
        by_cases hwin : newBestWins (scoreDoc q d) b0
        · have hstep : bestStep q (some b0) d = some (scoreDoc q d) := by
            simp [bestStep, hemp, hwin]
          have hih := ih (some (scoreDoc q d))
            (by intro b hb; cases hb; exact scoreDoc_distConsistent q d)
          have hwinLE : subRankLE (scoreDoc q d) b0 :=
            newBestWins_subRankLE hb0 (scoreDoc_distConsistent q d) hwin
          constructor
          · intro h
            rw [List.foldl_cons, hstep] at h
            rcases (hih.1 h).1 with h'
            cases h'
          · intro r hr
            rw [List.foldl_cons, hstep] at hr
            obtain ⟨h1, h2, h3, h4⟩ := hih.2 r hr
            have hrcand : subRankLE r (scoreDoc q d) := h4 _ rfl
            refine ⟨h1, ?_, ?_, ?_⟩
            · rcases h2 with h2 | h2
              · exact Or.inl (hscons ▸ List.mem_cons_of_mem _ h2)
              · cases h2
                exact Or.inl (hscons ▸ List.mem_cons_self _ _)
            · intro c hc
              rw [hscons] at hc
              rcases List.mem_cons.mp hc with hc | hc
              · exact hc ▸ hrcand
              · exact h3 c hc
            · intro b hb
              cases hb
              exact subRankLE_trans hrcand hwinLE
        · have hstep : bestStep q (some b0) d = some b0 := by
            simp [bestStep, hemp, hwin]
          have hih := ih (some b0) (by intro b hb; cases hb; exact hb0)
          have hloseLE : subRankLE b0 (scoreDoc q d) :=
            not_newBestWins_subRankLE hb0 (scoreDoc_distConsistent q d) hwin
          constructor
          · intro h
            rw [List.foldl_cons, hstep] at h
            rcases (hih.1 h).1 with h'
            cases h'
          · intro r hr
            rw [List.foldl_cons, hstep] at hr
            obtain ⟨h1, h2, h3, h4⟩ := hih.2 r hr
            have hrb0 : subRankLE r b0 := h4 _ rfl
            refine ⟨h1, ?_, ?_, ?_⟩
            · rcases h2 with h2 | h2
              · exact Or.inl (hscons ▸ List.mem_cons_of_mem _ h2)
              · exact Or.inr h2
            · intro c hc
              rw [hscons] at hc
              rcases List.mem_cons.mp hc with hc | hc
              · exact hc ▸ subRankLE_trans hrb0 hloseLE
              · exact h3 c hc
            · intro b hb
              cases hb
              exact hrb0

theorem bestSub_none_iff (q : List ℝ) (docs : List ImgDoc) :
    bestSub q docs = none ↔ scoredSubs q docs = [] := by
  constructor
  · intro h
    exact ((bestSub_fold q docs none (by intro b hb; cases hb)).1 h).2
  · intro h
    cases hb : bestSub q docs with
    | none => rfl
    | some r =>
      obtain ⟨_, h2, _, _⟩ :=
        (bestSub_fold q docs none (by intro b hb; cases hb)).2 r hb
      rcases h2 with h2 | h2
      · rw [h] at h2; cases h2
      · cases h2

theorem bestSub_some (q : List ℝ) (docs : List ImgDoc) {r : ScoredSub}
    (h : bestSub q docs = some r) :
    r ∈ scoredSubs q docs ∧ ∀ c ∈ scoredSubs q docs, subRankLE r c := by
  obtain ⟨_, h2, h3, _⟩ :=
    (bestSub_fold q docs none (by intro b hb; cases hb)).2 r h
  rcases h2 with h2 | h2
  · exact ⟨h2, h3⟩
  · cases h2

/-- `product_scores` built in candidate order (lines 357-389): one best
Sub-item per candidate entity; entities whose rerank produced nothing
are dropped. -/
noncomputable def rerankProducts (q : List ℝ) (store : String → List ImgDoc)
    (pr : ℕ) (cands : List String) : List (String × ScoredSub) :=
  cands.filterMap
    (fun pid => (bestSub q (docsFor store pr pid)).map (fun b => (pid, b)))

/-- `filtered` (line 401): keep entities with similarity at least
`min_similarity`. -/
noncomputable def rerankFiltered (q : List ℝ) (store : String → List ImgDoc)
    (pr : ℕ) (cands : List String) (minSim : ℝ) :
    List (String × ScoredSub) :=
  (rerankProducts q store pr cands).filter
    (fun x => decide (minSim ≤ x.2.similarity))

/-- The final sort key `(-similarity, distance, datapoint_id)`
(lines 403-406) as a ≤-style relation. -/
def prodRankLE (x y : String × ScoredSub) : Prop :=
  subRankLE x.2 y.2

noncomputable instance : DecidableRel subRankLE := fun b c =>
  inferInstanceAs (Decidable (_ ∨ _))

noncomputable instance : DecidableRel prodRankLE := fun x y =>
  inferInstanceAs (Decidable (subRankLE x.2 y.2))

instance : IsTotal (String × ScoredSub) prodRankLE :=
  ⟨fun x y => subRankLE_total x.2 y.2⟩

instance : IsTrans (String × ScoredSub) prodRankLE :=
  ⟨fun _ _ _ h1 h2 => subRankLE_trans h1 h2⟩

/-- `sorted_products` (lines 403-406): stable sort of the surviving
candidates by `(-similarity, distance, datapoint_id)`, truncated to the
requested result count. -/
noncomputable def finalRanked (q : List ℝ) (store : String → List ImgDoc)
    (pr : ℕ) (cands : List String) (minSim : ℝ) (k : ℕ) :
    List (String × ScoredSub) :=
  ((rerankFiltered q store pr cands minSim).insertionSort prodRankLE).take k

theorem rerankProducts_map_fst (q : List ℝ) (store : String → List ImgDoc)
    (pr : ℕ) (cands : List String) :
    (rerankProducts q store pr cands).map Prod.fst =
      cands.filter (fun pid => (bestSub q (docsFor store pr pid)).isSome) := by
  induction cands with
  | nil => rfl
  | cons pid cands ih =>
    simp only [rerankProducts, List.filterMap_cons, List.filter_cons] at ih ⊢
    cases h : bestSub q (docsFor store pr pid) with
    | none => simpa [h] using ih
    | some b => simpa [h] using ih

/-- **C1** — for every multi-image search request the Exact Re-Ranker
keeps exactly one best-scoring Sub-item per candidate entity (entities
with no scorable image are dropped), chosen so that strictly higher
remapped similarity wins, on a similarity tie lower distance wins, and
on a further tie the lexicographically smaller datapoint id wins (the
`subRankLE` rank order); the surviving candidates are sorted by
`(-similarity, distance, datapoint_id)` and truncated to the requested
count.  Because the output is a deterministic function sorted by this
total order, repeated runs on identical inputs produce identical
ordering; two entities with identical embeddings get equal similarity
and distance, so `subRankLE` orders them by datapoint id. -/
theorem c1_exact_reranker (q : List ℝ) (store : String → List ImgDoc)
    (pr k : ℕ) (cands : List String) (minSim : ℝ) :
    ((rerankProducts q store pr cands).map Prod.fst =
      cands.filter (fun pid => (bestSub q (docsFor store pr pid)).isSome)) ∧
    (∀ pid b, bestSub q (docsFor store pr pid) = some b →
      b ∈ scoredSubs q (docsFor store pr pid) ∧
      ∀ c ∈ scoredSubs q (docsFor store pr pid), subRankLE b c) ∧
    List.Sorted prodRankLE (finalRanked q store pr cands minSim k) ∧
    (finalRanked q store pr cands minSim k).length =
      min k (rerankFiltered q store pr cands minSim).length ∧
    (∀ x ∈ finalRanked q store pr cands minSim k,
      x ∈ rerankFiltered q store pr cands minSim) := by
  refine ⟨rerankProducts_map_fst q store pr cands, ?_, ?_, ?_, ?_⟩
  · intro pid b hb
    exact bestSub_some q _ hb
  · exact List.Pairwise.sublist (List.take_sublist _ _)
      (List.sorted_insertionSort prodRankLE _)
  · rw [finalRanked, List.length_take, List.length_insertionSort]
  · intro x hx
    have hx' : x ∈ (rerankFiltered q store pr cands minSim).insertionSort
        prodRankLE := (List.take_sublist _ _).subset hx
    exact (List.mem_insertionSort prodRankLE).mp hx'

theorem c1_exact_reranker_witness :
    bestSub [(1 : ℝ)] (docsFor (fun _ => [⟨"p_0", [1], "u", 0⟩]) 8 "p") =
      some (scoreDoc [(1 : ℝ)] ⟨"p_0", [1], "u", 0⟩) ∧
    scoreDoc [(1 : ℝ)] ⟨"p_0", [1], "u", 0⟩ ∈
      scoredSubs [(1 : ℝ)] (docsFor (fun _ => [⟨"p_0", [1], "u", 0⟩]) 8 "p") := by
  have hb : bestSub [(1 : ℝ)] (docsFor (fun _ => [⟨"p_0", [1], "u", 0⟩]) 8 "p") =
      some (scoreDoc [(1 : ℝ)] ⟨"p_0", [1], "u", 0⟩) := rfl
  exact ⟨hb,
    ((c1_exact_reranker [(1 : ℝ)] (fun _ => [⟨"p_0", [1], "u", 0⟩]) 8 5 ["p"]
      0).2.1 "p" _ hb).1⟩

/- ---------------------------------------------------------------------
   Full multi-image search pipeline (search_by_image_multi):
   neighbors -> canonical sort -> candidate aggregation -> exact
   re-rank -> filter/sort/truncate -> join with product documents.
--------------------------------------------------------------------- -/

/-- One entry of the response `results` array (lines 426-443).  The
product document is abstracted to an opaque payload string. -/
structure SearchResult where
  product : String
  similarity_score : ℝ
  distance : ℝ
  matched_image_url : String
  matched_position : ℤ

/-- Python `round(x, 4)`.  (Python rounds exact half-ulps to even;
this model rounds them up.  The pipeline only displays these values and
no claim depends on the tie case.) -/
noncomputable def round4 (x : ℝ) : ℝ :=
  (round (x * 10000) : ℤ) / 10000

/-- The response assembly loop (lines 414-443): look each ranked
product id up in the products collection, skip missing products, and
report rounded similarity and distance with the matched image. -/
noncomputable def buildResults (prodDb : String → Option String)
    (ranked : List (String × ScoredSub)) : List SearchResult :=
  ranked.filterMap (fun x =>
    (prodDb x.1).map (fun p =>
      { product := p
        similarity_score := round4 x.2.similarity
        distance := round4 x.2.distance
        matched_image_url := x.2.matched_image_url
        matched_position := x.2.position }))

/-- The deterministic tail of `search_by_image_multi` (everything after
the query embedding and the ANN call, lines 303-443), as a function of
the returned neighbor list and the stored data. -/
noncomputable def searchByImageMulti (q : List ℝ)
    (store : String → List ImgDoc) (prodDb : String → Option String)
    (neighbors : List (String × ℚ)) (pr k : ℕ) (minSim : ℝ) :
    List SearchResult :=
  buildResults prodDb
    (finalRanked q store pr (aggregateCandidates neighbors) minSim k)

theorem canonNeighbors_perm_eq {ns1 ns2 : List (String × ℚ)}
    (hperm : ns1.Perm ns2) : canonNeighbors ns1 = canonNeighbors ns2 := by
  refine List.eq_of_perm_of_sorted (r := neighborLE) ?_ ?_ ?_
  · exact ((List.perm_insertionSort neighborLE ns1).trans hperm).trans
      (List.perm_insertionSort neighborLE ns2).symm
  · exact List.sorted_insertionSort neighborLE ns1
  · exact List.sorted_insertionSort neighborLE ns2

/-- **C10** — the final ranked result list of the multi-image search
pipeline depends only on the multiset of `(datapoint_id, distance)`
neighbor pairs, not on the order in which the Vector Index returns
them: for any two permutations of the same neighbor list, with the same
query embedding, embedding store and product collection, the outputs
are identical, because neighbors are canonically re-sorted by
`(distance, datapoint_id)` before entity aggregation. -/
theorem c10_neighbor_order_invariance (q : List ℝ)
    (store : String → List ImgDoc) (prodDb : String → Option String)
    (ns1 ns2 : List (String × ℚ)) (pr k : ℕ) (minSim : ℝ)
    (hperm : ns1.Perm ns2) :
    searchByImageMulti q store prodDb ns1 pr k minSim =
      searchByImageMulti q store prodDb ns2 pr k minSim := by
  have hcanon : canonNeighbors ns1 = canonNeighbors ns2 :=
    canonNeighbors_perm_eq hperm
  have hagg : aggregateCandidates ns1 = aggregateCandidates ns2 := by
    rw [aggregateCandidates, aggregateCandidates, hcanon]
  rw [searchByImageMulti, searchByImageMulti, hagg]

theorem c10_neighbor_order_invariance_witness :
    ([("A_1", (1 : ℚ)), ("B_1", 2)] : List (String × ℚ)).Perm
        [("B_1", 2), ("A_1", 1)] ∧
    searchByImageMulti [] (fun _ => []) (fun _ => none)
        [("A_1", (1 : ℚ)), ("B_1", 2)] 8 5 0 =
      searchByImageMulti [] (fun _ => []) (fun _ => none)
        [("B_1", 2), ("A_1", 1)] 8 5 0 := by
  refine ⟨by decide, ?_⟩
  exact c10_neighbor_order_invariance [] (fun _ => []) (fun _ => none)
    [("A_1", (1 : ℚ)), ("B_1", 2)] [("B_1", 2), ("A_1", 1)] 8 5 0 (by decide)

/- ---------------------------------------------------------------------
   Rate limiting in rebuild_image_index_multi (lines 93-161), under a
   simulated clock: requests.get and the embedding call are modelled as
   instantaneous, time.sleep advances the clock.  Each item's processing
   has one of six outcomes, mirroring the control flow of the item loop:
   * fetchErr  — requests.get raised (caught at line 158): no provider
                 request issued;
   * httpBad   — HTTP status != 200 (line 127): no provider request;
   * tooLarge  — payload over 10MB (line 134): no provider request;
   * embedRaise — create_image_embedding_from_bytes raised (line 140,
                 the service re-raises after logging): the provider call
                 was made — the code itself counts this call as "1
                 request" against the quota (comment at line 139) — but
                 the exception skips both `request_count += 1` and the
                 pacing sleep;
   * embedNone — the call returned a falsy embedding: counted, paced;
   * embedOk   — the call returned an embedding: counted, paced.
--------------------------------------------------------------------- -/

/-- `REQUESTS_PER_MINUTE = 8` (line 94). -/
def REQUESTS_PER_MINUTE : ℕ := 8

/-- `SECONDS_PER_REQUEST = 60.0 / REQUESTS_PER_MINUTE` (line 95). -/
def SECONDS_PER_REQUEST : ℚ := 60 / (REQUESTS_PER_MINUTE : ℚ)

inductive ItemOutcome
  | fetchErr
  | httpBad
  | tooLarge
  | embedRaise
  | embedNone
  | embedOk
deriving DecidableEq

/-- The rate-limiter state: simulated clock, the `request_count` and
`minute_start` variables (lines 100-101), and the trace of times at
which an embedding-provider request was issued. -/
structure RLState where
  now : ℚ
  request_count : ℕ
  minute_start : ℚ
  reqTimes : List ℚ

/-- Processing of one item of the batch loop (lines 106-161): the
admission check (lines 111-119) runs before every item; a provider
request is issued exactly when the item reaches the embedding call. -/
def rlStep (s : RLState) (o : ItemOutcome) : RLState :=
  let s1 :=
    if REQUESTS_PER_MINUTE ≤ s.request_count then
      let elapsed := s.now - s.minute_start
      let now1 := if elapsed < 60 then s.now + (60 - elapsed + 1) else s.now
      { now := now1, request_count := 0, minute_start := now1,
        reqTimes := s.reqTimes }
    else s
  match o with
  | .fetchErr => s1
  | .httpBad => s1
  | .tooLarge => s1
  | .embedRaise => { s1 with reqTimes := s1.reqTimes ++ [s1.now] }
  | .embedNone =>
      { now := s1.now + SECONDS_PER_REQUEST
        request_count := s1.request_count + 1
        minute_start := s1.minute_start
        reqTimes := s1.reqTimes ++ [s1.now] }
  | .embedOk =>
      { now := s1.now + SECONDS_PER_REQUEST
        request_count := s1.request_count + 1
        minute_start := s1.minute_start
        reqTimes := s1.reqTimes ++ [s1.now] }

/-- Initial state (lines 100-101): counters zero, `minute_start`
initialised to the loop start time (taken as 0). -/
def rlInit : RLState :=
  { now := 0, request_count := 0, minute_start := 0, reqTimes := [] }

/-- The whole item loop of `rebuild_image_index_multi`. -/
def rlRun (items : List ItemOutcome) : RLState :=
  items.foldl rlStep rlInit

/-- Number of provider requests issued inside the rolling window
`[t, t+60)`. -/
def windowCount (times : List ℚ) (t : ℚ) : ℕ :=
  (times.filter (fun x => decide (t ≤ x ∧ x < t + 60))).length

/-- Pacing relation between successive issued requests: at least one
`SECONDS_PER_REQUEST` apart. -/
def gapLE (a b : ℚ) : Prop := a + SECONDS_PER_REQUEST ≤ b

instance : IsTrans ℚ gapLE :=
  ⟨fun a b c h1 h2 => by
    have hg : (0 : ℚ) ≤ SECONDS_PER_REQUEST := by
      norm_num [SECONDS_PER_REQUEST, REQUESTS_PER_MINUTE]
    unfold gapLE at h1 h2 ⊢
    linarith⟩

/-- Loop invariant: issued request times are spaced at least
`SECONDS_PER_REQUEST` apart, and the clock is at least
`SECONDS_PER_REQUEST` past the last issued request. -/
def rlInv (s : RLState) : Prop :=
  List.Chain' gapLE s.reqTimes ∧
  ∀ x ∈ s.reqTimes, x + SECONDS_PER_REQUEST ≤ s.now

theorem rlInv_init : rlInv rlInit := by
  constructor
  · simp [rlInit]
  · intro x hx; simp [rlInit] at hx

theorem rlStep_inv {s : RLState} {o : ItemOutcome}
    (ho : o ≠ ItemOutcome.embedRaise) (h : rlInv s) : rlInv (rlStep s o) := by
  have hg : (0 : ℚ) ≤ SECONDS_PER_REQUEST := by
    norm_num [SECONDS_PER_REQUEST, REQUESTS_PER_MINUTE]
  obtain ⟨hchain, hnow⟩ := h
  rw [rlStep.eq_def]
  set s1 := if REQUESTS_PER_MINUTE ≤ s.request_count then
      { now := (if s.now - s.minute_start < 60 then
          s.now + (60 - (s.now - s.minute_start) + 1) else s.now),
        request_count := 0,
        minute_start := (if s.now - s.minute_start < 60 then
          s.now + (60 - (s.now - s.minute_start) + 1) else s.now),
        reqTimes := s.reqTimes } else s with hs1def
  have hs1times : s1.reqTimes = s.reqTimes := by
    rw [hs1def]; split_ifs <;> rfl
  have hs1now : s.now ≤ s1.now := by
    rw [hs1def]
    split_ifs with h1 h2
    · simp only
      linarith
    · simp only
      linarith
    · exact le_refl _
  have hinv1 : rlInv s1 := by
    refine ⟨hs1times ▸ hchain, ?_⟩
    intro x hx
    rw [hs1times] at hx
    exact le_trans (hnow x hx) hs1now
  have happend : rlInv ⟨s1.now + SECONDS_PER_REQUEST,
      s1.request_count + 1, s1.minute_start, s1.reqTimes ++ [s1.now]⟩ := by
    obtain ⟨hc1, hn1⟩ := hinv1
    constructor
    · rw [List.chain'_append]
      refine ⟨hc1, List.chain'_singleton _, ?_⟩
      intro x hx y hy
      simp only [List.head?_cons, Option.mem_def, Option.some.injEq] at hy
      subst hy
      have hxmem : x ∈ s1.reqTimes := by
        obtain ⟨hne, hxeq⟩ := List.mem_getLast?_eq_getLast hx
        exact hxeq ▸ List.getLast_mem hne
      exact hn1 x hxmem
    · intro x hx
      rcases List.mem_append.mp hx with hx | hx
      · have := hn1 x hx
        simp only
        linarith
      · simp only [List.mem_singleton] at hx
        subst hx
        simp only
        linarith
  cases o with
  | fetchErr => exact hinv1
  | httpBad => exact hinv1
  | tooLarge => exact hinv1
  | embedRaise => exact absurd rfl ho
  | embedNone => exact happend
  | embedOk => exact happend

theorem rlRun_inv (items : List ItemOutcome)
    (hno : ItemOutcome.embedRaise ∉ items) : rlInv (rlRun items) := by
  rw [rlRun]
  have hgen : ∀ (l : List ItemOutcome) (s : RLState), rlInv s →
      ItemOutcome.embedRaise ∉ l → rlInv (l.foldl rlStep s) := by
    intro l
    induction l with
    | nil => intro s hs _; exact hs
    | cons o l ih =>
      intro s hs hl
      simp only [List.mem_cons, not_or] at hl
      exact ih _ (rlStep_inv (Ne.symm hl.1) hs) hl.2
  exact hgen items rlInit rlInv_init hno

theorem chain_head_le {g : ℚ} (hg : 0 ≤ g) :
    ∀ (x : ℚ) (l : List ℚ),
      List.Chain' (fun a b => a + g ≤ b) (x :: l) → ∀ y ∈ l, x + g ≤ y := by
  intro x l
  induction l generalizing x with
  | nil => intro _ y hy; cases hy
  | cons y l ih =>
    intro hchain z hz
    rw [List.chain'_cons] at hchain
    rcases List.mem_cons.mp hz with hz | hz
    · exact hz ▸ hchain.1
    · have := ih y hchain.2 z hz
      linarith [hchain.1]

theorem chain_window_len {g : ℚ} (hg : 0 < g) :
    ∀ (l : List ℚ) (m : ℕ) (t : ℚ),
      List.Chain' (fun a b => a + g ≤ b) l →
      (∀ x ∈ l, t ≤ x ∧ x < t + g * m) → l.length ≤ m := by
  intro l
  induction l with
  | nil => intro m t _ _; exact Nat.zero_le m
  | cons x l ih =>
    intro m t hchain hbound
    obtain ⟨hx1, hx2⟩ := hbound x (List.mem_cons_self _ _)
    cases m with
    | zero =>
      exfalso
      simp only [Nat.cast_zero, mul_zero, add_zero] at hx2
      linarith
    | succ m =>
      have hrest : ∀ y ∈ l, t + g ≤ y ∧ y < (t + g) + g * m := by
        intro y hy
        have h1 : x + g ≤ y := chain_head_le (le_of_lt hg) x l hchain y hy
        have h2 := (hbound y (List.mem_cons_of_mem _ hy)).2
        constructor
        · linarith
        · push_cast at h2 ⊢
          linarith
      have htail : List.Chain' (fun a b => a + g ≤ b) l := hchain.tail
      have := ih m (t + g) htail hrest
      simpa using Nat.succ_le_succ this

/-- **C4 (amended)** — provided every issued embedding request returns
to the caller (successfully or with an empty result, i.e. no item hits
the `embedRaise` outcome), the number of image-embedding provider
requests issued within any rolling 60-second window `[t, t+60)` never
exceeds the configured per-minute ceiling `REQUESTS_PER_MINUTE`: every
counted request is followed by a `SECONDS_PER_REQUEST` pause, so issued
requests are at least 7.5 seconds apart and at most 8 fit in any such
window.  (Requests whose call raises are neither counted nor paced and
can exceed the ceiling — see the counterexample.) -/
theorem c4_rate_limit_window (items : List ItemOutcome)
    (hno : ItemOutcome.embedRaise ∉ items) (t : ℚ) :
    windowCount (rlRun items).reqTimes t ≤ REQUESTS_PER_MINUTE := by
  have hg : (0 : ℚ) < SECONDS_PER_REQUEST := by
    norm_num [SECONDS_PER_REQUEST, REQUESTS_PER_MINUTE]
  obtain ⟨hchain, _⟩ := rlRun_inv items hno
  rw [windowCount]
  have hsub : List.Sublist ((rlRun items).reqTimes.filter
      (fun x => decide (t ≤ x ∧ x < t + 60))) (rlRun items).reqTimes :=
    List.filter_sublist _
  have hchainf : List.Chain' gapLE ((rlRun items).reqTimes.filter
      (fun x => decide (t ≤ x ∧ x < t + 60))) := hchain.sublist hsub
  refine chain_window_len hg _ REQUESTS_PER_MINUTE t hchainf ?_
  intro x hx
  have hmem := List.of_mem_filter hx
  simp only [decide_eq_true_eq] at hmem
  refine ⟨hmem.1, ?_⟩
  have h60 : SECONDS_PER_REQUEST * (REQUESTS_PER_MINUTE : ℚ) = 60 := by
    norm_num [SECONDS_PER_REQUEST, REQUESTS_PER_MINUTE]
  rw [h60]
  exact hmem.2

theorem c4_rate_limit_window_witness :
    ItemOutcome.embedRaise ∉
        [ItemOutcome.embedOk, ItemOutcome.fetchErr, ItemOutcome.embedNone] ∧
    windowCount (rlRun [ItemOutcome.embedOk, ItemOutcome.fetchErr,
        ItemOutcome.embedNone]).reqTimes 0 ≤ REQUESTS_PER_MINUTE :=
  ⟨by decide, c4_rate_limit_window _ (by decide) 0⟩

/-- **C4 counterexample** — nine consecutive items whose embedding call
raises (a code path that exists: `create_image_embedding_from_bytes`
re-raises service errors) issue nine provider requests back-to-back:
none is counted by `request_count` and none is paced, so the rolling
window `[0, 60)` contains 9 > 8 requests and the claimed ceiling is
violated. -/
theorem c4_rate_limit_counterexample :
    REQUESTS_PER_MINUTE <
      windowCount (rlRun (List.replicate 9 ItemOutcome.embedRaise)).reqTimes 0 := by
  norm_num [rlRun, rlStep, rlInit, windowCount, REQUESTS_PER_MINUTE,
    List.replicate, List.foldl]

/- ---------------------------------------------------------------------
   Rebuild endpoints.
   * rebuild_index (index_ops.py, lines 19-106): batches of 100; a
     whole-batch embedding failure is caught and the batch skipped; an
     upsert failure is caught and the batch's count skipped; but the
     mirror write `embeddings_col.insert_many` (line 88) is NOT wrapped
     in try/except, so its failure propagates to the outer handler and
     the route returns an error.  The success payload carries only
     `rebuilt_count` — no failed-item count.
   * rebuild_image_index_multi (multi_image_index.py, lines 21-204):
     batches of 3; per-item download/size/embedding failures and
     per-batch insert/upsert failures are all caught; the success
     payload carries `total_images_indexed` and `failed_count`.
   Deletion of old embeddings and vectors (wrapped in try or harmless)
   and the pacing sleeps (modelled for C4) do not affect the returned
   counts and are omitted from this state.  Service calls are oracles
   indexed by batch/item position.
--------------------------------------------------------------------- -/

/-- `_chunks(items, n)`: split a list into consecutive chunks of `n`
(fuel-indexed so that it computes; `chunksOf` instantiates the fuel). -/
def chunksOfAux (n : ℕ) : ℕ → List α → List (List α)
  | 0, _ => []
  | _ + 1, [] => []
  | fuel + 1, a :: l => (a :: l.take (n - 1)) :: chunksOfAux n fuel (l.drop (n - 1))

/-- `_chunks(items, n)` of index_ops.py (lines 15-17) and
multi_image_index.py (lines 16-18), for `n ≥ 1`. -/
def chunksOf (n : ℕ) (l : List α) : List (List α) :=
  chunksOfAux n l.length l

theorem chunksOfAux_join (n : ℕ) :
    ∀ (fuel : ℕ) (l : List α), l.length ≤ fuel →
      (chunksOfAux n fuel l).flatten = l := by
  intro fuel
  induction fuel with
  | zero =>
    intro l hl
    rw [Nat.le_zero, List.length_eq_zero] at hl
    subst hl
    rfl
  | succ fuel ih =>
    intro l hl
    cases l with
    | nil => rfl
    | cons a l =>
      simp only [chunksOfAux, List.flatten_cons]
      have hdrop : (l.drop (n - 1)).length ≤ fuel := by
        rw [List.length_drop]
        simp only [List.length_cons] at hl
        omega
      rw [ih _ hdrop, List.cons_append, List.take_append_drop]

theorem chunksOf_join (n : ℕ) (l : List α) : (chunksOf n l).flatten = l :=
  chunksOfAux_join n l.length l (le_refl _)

/-- A product row as read by the text rebuild (line 47). -/
structure TextProduct where
  pid : String
  name : String
  description : String

/-- `text[:4000]` truncation (lines 53-54). -/
def truncate4000 (s : String) : String :=
  if 4000 < s.data.length then String.mk (s.data.take 4000) else s

/-- `to_embed` of rebuild_index (lines 46-55): id plus
`f"{name}. {description}"` truncated to 4000 characters. -/
def textToEmbed (products : List TextProduct) : List (String × String) :=
  products.map (fun p => (p.pid, truncate4000 (p.name ++ ". " ++ p.description)))

/-- The world of one text rebuild run: collection contents and one
oracle outcome per service call site.  `embedBatch i = none` models
`create_embeddings_batch` raising on batch `i` (caught, line 65-71);
`insertOk i = false` models `insert_many` raising (NOT caught, line
88); `upsertOk i = false` models `upsert_vectors` raising (caught,
lines 91-97). -/
structure TextWorld where
  mongoPresent : Bool
  products : List TextProduct
  embedBatch : ℕ → Option (List (List ℚ))
  insertOk : ℕ → Bool
  upsertOk : ℕ → Bool

/-- The success payload of rebuild_index (line 102): only
`rebuilt_count`, there is no failed-item count in this response. -/
structure TextResp where
  success : Bool
  rebuilt_count : ℕ
deriving DecidableEq

/-- `zip(ids, embs, texts)` with the falsy-embedding skip (lines
76-85): pairs (product id, embedding) for documents and upsert. -/
def textBatchPairs (batch : List (String × String))
    (embs : List (List ℚ)) : List (String × List ℚ) :=
  (batch.zip embs).filterMap
    (fun pe => if pe.2.isEmpty then none else some (pe.1.1, pe.2))

/-- One iteration of the batch loop of rebuild_index (lines 60-100).
The un-wrapped `insert_many` makes this step fallible. -/
def textStep (tw : TextWorld) (total : ℕ)
    (bi : ℕ × List (String × String)) : Except String ℕ :=
  match tw.embedBatch bi.1 with
  | none => Except.ok total
  | some embs =>
    let pairs := textBatchPairs bi.2 embs
    if pairs.isEmpty then Except.ok total
    else if tw.insertOk bi.1 = false then Except.error "insert_many raised"
    else if tw.upsertOk bi.1 then Except.ok (total + pairs.length)
    else Except.ok total

/-- `rebuild_index` of index_ops.py: an exception anywhere outside an
inner try/except is caught by the outer handler and surfaces as an
error response (line 104-106). -/
def rebuild_index (tw : TextWorld) : Except String TextResp :=
  if tw.mongoPresent = false then Except.error "MONGODB_SERVICE missing"
  else
    match ((chunksOf 100 (textToEmbed tw.products)).enum).foldlM
        (textStep tw) 0 with
    | Except.error e => Except.error e
    | Except.ok total => Except.ok { success := true, rebuilt_count := total }

/-- The number of vectors actually upserted by a text rebuild run. -/
def textRebuiltCount (tw : TextWorld) : ℕ :=
  (((chunksOf 100 (textToEmbed tw.products)).enum).map (fun bi =>
    match tw.embedBatch bi.1 with
    | none => 0
    | some embs =>
      let pairs := textBatchPairs bi.2 embs
      if pairs.isEmpty then 0
      else if tw.upsertOk bi.1 then pairs.length else 0)).sum

theorem textFold_ok (tw : TextWorld) (hins : ∀ i, tw.insertOk i = true) :
    ∀ (bs : List (ℕ × List (String × String))) (total0 : ℕ),
      bs.foldlM (textStep tw) total0 =
        Except.ok (total0 + (bs.map (fun bi =>
          match tw.embedBatch bi.1 with
          | none => 0
          | some embs =>
            let pairs := textBatchPairs bi.2 embs
            if pairs.isEmpty then 0
            else if tw.upsertOk bi.1 then pairs.length else 0)).sum) := by
  intro bs
  induction bs with
  | nil =>
    intro total0
    simp only [List.foldlM_nil, List.map_nil, List.sum_nil, Nat.add_zero]
    rfl
  | cons bi bs ih =>
    intro total0
    rw [List.foldlM_cons]
    have hstep : ∀ t : ℕ, textStep tw t bi = Except.ok (t +
        (match tw.embedBatch bi.1 with
         | none => 0
         | some embs =>
           let pairs := textBatchPairs bi.2 embs
           if pairs.isEmpty then 0
           else if tw.upsertOk bi.1 then pairs.length else 0)) := by
      intro t
      cases hemb : tw.embedBatch bi.1 with
      | none => simp [textStep, hemb]
      | some embs =>
        by_cases hpe : (textBatchPairs bi.2 embs).isEmpty
        · simp [textStep, hemb, hpe]
        · cases hup : tw.upsertOk bi.1
          · simp [textStep, hemb, hpe, hins bi.1, hup]
          · simp [textStep, hemb, hpe, hins bi.1, hup]
    rw [hstep total0]
    show List.foldlM (textStep tw) _ bs = _
    rw [ih]
    simp only [List.map_cons, List.sum_cons, Nat.add_assoc]

/-- One element of a product's `images` array (lines 62-76): a dict
with url and position, a plain url string (position defaults to 999),
or something else entirely (skipped). -/
inductive MMImageEntry
  | dictEntry (url : Option String) (position : ℕ)
  | strEntry (url : String)
  | other

/-- `url.startswith(('http://', 'https://'))` (line 75); an absent or
empty url is also rejected (line 72). -/
def urlHttp (u : String) : Bool :=
  u.startsWith "http://" || u.startsWith "https://"

/-- Extract (url, position) from one images entry, per lines 62-76. -/
def parseImage : MMImageEntry → Option (String × ℕ)
  | MMImageEntry.dictEntry none _ => none
  | MMImageEntry.dictEntry (some url) pos =>
      if urlHttp url then some (url, pos) else none
  | MMImageEntry.strEntry url =>
      if urlHttp url then some (url, 999) else none
  | MMImageEntry.other => none

/-- A product row as read by the multi-image rebuild (line 55). -/
structure MMProduct where
  pid : String
  name : String
  images : List MMImageEntry

/-- One entry of `to_embed` (lines 80-86). -/
structure MMItem where
  datapoint_id : String
  product_id : String
  image_url : String
  position : ℕ
  product_name : String

/-- `to_embed` (lines 53-86): every valid image of every product, with
datapoint id `f"{pid}_{position}"`. -/
def mmToEmbed (products : List MMProduct) : List MMItem :=
  products.flatMap (fun p =>
    (p.images.filterMap parseImage).map (fun up =>
      { datapoint_id := encodeDatapointId p.pid up.2
        product_id := p.pid
        image_url := up.1
        position := up.2
        product_name := p.name }))

/-- The world of one multi-image rebuild run.  `itemOutcome i` is the
outcome of the download/embedding of the i-th item of `to_embed`
(see `ItemOutcome`); `itemEmb i` is the embedding returned when the
call succeeds; `insertOk`/`upsertOk` are the per-batch Mongo insert and
Vertex upsert outcomes (both wrapped in try/except, lines 181-193). -/
structure MMWorld where
  mongoPresent : Bool
  products : List MMProduct
  itemOutcome : ℕ → ItemOutcome
  itemEmb : ℕ → List ℚ
  insertOk : ℕ → Bool
  upsertOk : ℕ → Bool

/-- A document of the `product_image_embeddings` mirror collection
(lines 169-178). -/
structure MirrorDoc where
  datapoint_id : String
  product_id : String
  embedding : List ℚ
  image_url : String
  position : ℕ
  product_name : String

/-- The success payload of rebuild_image_index_multi (lines 195-200):
both the upserted count and the failed count. -/
structure MMResp where
  success : Bool
  total_images_indexed : ℕ
  failed_count : ℕ

/-- The document collected for one item, or `none` when the item
failed: download failure, oversized payload, raised embedding call, or
falsy embedding — exactly the cases where `failed_count` is
incremented (lines 121-161). -/
def mmItemDoc (w : MMWorld) (it : ℕ × MMItem) : Option MirrorDoc :=
  match w.itemOutcome it.1 with
  | ItemOutcome.embedOk =>
    if (w.itemEmb it.1).isEmpty then none
    else some
      { datapoint_id := it.2.datapoint_id
        product_id := it.2.product_id
        embedding := w.itemEmb it.1
        image_url := it.2.image_url
        position := it.2.position
        product_name := it.2.product_name }
  | _ => none

/-- One iteration of the batch loop (lines 103-193), acting on the
state (total_upsert, failed_count, mirror collection): item failures
add to `failed_count`; a failed insert is logged and the mirror write
lost; a failed upsert is logged and the batch's count not added;
processing always continues. -/
def mmStep (w : MMWorld) (st : ℕ × ℕ × List MirrorDoc)
    (bi : ℕ × List (ℕ × MMItem)) : ℕ × ℕ × List MirrorDoc :=
  let embeds := bi.2.filterMap (mmItemDoc w)
  let failedHere := (bi.2.filter (fun it => (mmItemDoc w it).isNone)).length
  let mirror := if embeds.isEmpty then st.2.2
    else if w.insertOk bi.1 then st.2.2 ++ embeds else st.2.2
  let total := if embeds.isEmpty then st.1
    else if w.upsertOk bi.1 then st.1 + embeds.length else st.1
  (total, st.2.1 + failedHere, mirror)

/-- `rebuild_image_index_multi`: batches of 3 over the enumerated
`to_embed` items; only a missing Mongo configuration escapes to the
outer handler. -/
def rebuild_image_index_multi (w : MMWorld) :
    Except String (MMResp × List MirrorDoc) :=
  if w.mongoPresent = false then Except.error "MONGODB_SERVICE missing"
  else
    let st := ((chunksOf 3 (mmToEmbed w.products).enum).enum).foldl
      (mmStep w) (0, 0, [])
    Except.ok
      ({ success := true, total_images_indexed := st.1,
         failed_count := st.2.1 }, st.2.2)

/-- Specification count: items that produced no embedding document. -/
def mmFailedCount (w : MMWorld) : ℕ :=
  ((mmToEmbed w.products).enum.filter
    (fun it => (mmItemDoc w it).isNone)).length

/-- Specification count: vectors actually upserted (batches whose
upsert succeeded contribute their collected embeddings). -/
def mmUpsertedCount (w : MMWorld) : ℕ :=
  (((chunksOf 3 (mmToEmbed w.products).enum).enum).map (fun bi =>
    let embeds := bi.2.filterMap (mmItemDoc w)
    if embeds.isEmpty then 0
    else if w.upsertOk bi.1 then embeds.length else 0)).sum

theorem mmFold_spec (w : MMWorld) :
    ∀ (bs : List (ℕ × List (ℕ × MMItem))) (t0 f0 : ℕ) (m0 : List MirrorDoc),
      (bs.foldl (mmStep w) (t0, f0, m0)).1 =
        t0 + (bs.map (fun bi =>
          let embeds := bi.2.filterMap (mmItemDoc w)
          if embeds.isEmpty then 0
          else if w.upsertOk bi.1 then embeds.length else 0)).sum ∧
      (bs.foldl (mmStep w) (t0, f0, m0)).2.1 =
        f0 + (((bs.map Prod.snd).flatten).filter
          (fun it => (mmItemDoc w it).isNone)).length := by
  intro bs
  induction bs with
  | nil => intro t0 f0 m0; simp
  | cons bi bs ih =>
    intro t0 f0 m0
    rw [List.foldl_cons]
    have hstep : mmStep w (t0, f0, m0) bi =
        ((if (bi.2.filterMap (mmItemDoc w)).isEmpty then t0
          else if w.upsertOk bi.1 then t0 + (bi.2.filterMap (mmItemDoc w)).length
          else t0),
         f0 + (bi.2.filter (fun it => (mmItemDoc w it).isNone)).length,
         (if (bi.2.filterMap (mmItemDoc w)).isEmpty then m0
          else if w.insertOk bi.1 then m0 ++ bi.2.filterMap (mmItemDoc w)
          else m0)) := rfl
    rw [hstep]
    obtain ⟨h1, h2⟩ := ih _ _ _
    constructor
    · rw [h1, List.map_cons, List.sum_cons]
      by_cases hemp : (bi.2.filterMap (mmItemDoc w)).isEmpty
      · simp [hemp]
      · cases hup : w.upsertOk bi.1 <;> simp [hemp, hup] <;> omega
    · rw [h2, List.map_cons, List.flatten_cons, List.filter_append,
        List.length_append]
      omega

/-- **C2 (amended)** — the multi-image rebuild returns to its caller
both a count of vectors actually upserted and a count of failed items,
and never raises for partial failures (image fetch failures, oversized
payloads, embedding failures, mirror insert failures and Vector Index
upsert failures are logged, the item or batch skipped, and processing
continues); only a missing Mongo configuration yields an error result.
The text-index rebuild tolerates whole-batch embedding failures and
upsert failures the same way and, when every mirror insert succeeds,
returns a success payload — but that payload carries only
`rebuilt_count` (no failed-item count), and a mirror insert failure
aborts it with an error result (see the counterexample). -/
theorem c2_rebuild_error_handling :
    (∀ w : MMWorld, w.mongoPresent = true →
      ∃ mirror, rebuild_image_index_multi w = Except.ok
        ({ success := true, total_images_indexed := mmUpsertedCount w,
           failed_count := mmFailedCount w }, mirror)) ∧
    (∀ tw : TextWorld, tw.mongoPresent = true →
      (∀ i, tw.insertOk i = true) →
      rebuild_index tw = Except.ok
        { success := true, rebuilt_count := textRebuiltCount tw }) := by
  constructor
  · intro w hm
    obtain ⟨h1, h2⟩ := mmFold_spec w
      ((chunksOf 3 (mmToEmbed w.products).enum).enum) 0 0 []
    have hsnd : (((chunksOf 3 (mmToEmbed w.products).enum).enum.map
        Prod.snd).flatten) = (mmToEmbed w.products).enum := by
      rw [List.enum_map_snd, chunksOf_join]
    rw [hsnd, Nat.zero_add] at h2
    rw [Nat.zero_add] at h1
    refine ⟨((chunksOf 3 (mmToEmbed w.products).enum).enum.foldl
      (mmStep w) (0, 0, [])).2.2, ?_⟩
    rw [rebuild_image_index_multi, if_neg (by simp [hm])]
    rw [mmUpsertedCount, mmFailedCount, ← h1, ← h2]
  · intro tw hm hins
    rw [rebuild_index, if_neg (by simp [hm]), textFold_ok tw hins]
    rw [textRebuiltCount, Nat.zero_add]

/-- Concrete world for the C2 witness: one product, one valid image,
everything succeeds. -/
def c2MMWorld : MMWorld :=
  { mongoPresent := true
    products := [⟨"p", "name", [MMImageEntry.dictEntry (some "http://x/i.jpg") 0]⟩]
    itemOutcome := fun _ => ItemOutcome.embedOk
    itemEmb := fun _ => [1]
    insertOk := fun _ => true
    upsertOk := fun _ => true }

/-- Concrete text world for the C2 witness: one product, embedding and
insert and upsert all succeed. -/
def c2TextWorld : TextWorld :=
  { mongoPresent := true
    products := [⟨"p1", "name", "desc"⟩]
    embedBatch := fun _ => some [[1]]
    insertOk := fun _ => true
    upsertOk := fun _ => true }

theorem c2_rebuild_error_handling_witness :
    (∃ mirror, rebuild_image_index_multi c2MMWorld = Except.ok
      ({ success := true, total_images_indexed := mmUpsertedCount c2MMWorld,
         failed_count := mmFailedCount c2MMWorld }, mirror)) ∧
    rebuild_index c2TextWorld = Except.ok
      { success := true, rebuilt_count := textRebuiltCount c2TextWorld } :=
  ⟨c2_rebuild_error_handling.1 c2MMWorld rfl,
    c2_rebuild_error_handling.2 c2TextWorld rfl (fun _ => rfl)⟩

/-- Concrete text world on which the claim fails: a single batch whose
embeddings succeed but whose mirror `insert_many` raises. -/
def c2FailTextWorld : TextWorld :=
  { mongoPresent := true
    products := [⟨"p1", "name", "desc"⟩]
    embedBatch := fun _ => some [[1]]
    insertOk := fun _ => false
    upsertOk := fun _ => true }

/-- **C2 counterexample** — a mirror insert failure is a partial
failure the claim says is logged and skipped in both rebuilds; in the
text rebuild it is NOT caught (index_ops.py line 88 has no try/except),
so the whole rebuild aborts with an error result. -/
theorem c2_rebuild_counterexample :
    rebuild_index c2FailTextWorld = Except.error "insert_many raised" := rfl

/- ---------------------------------------------------------------------
   Personalization profile builder
   (_get_user_interacted_products, recommend.py lines 39-107).
   Events are taken as the already-fetched list (query, ts-descending
   sort and limit applied); each event carries the computed age in days
   (`(now - event_time).days`), or `none` when the timestamp is missing
   or unparseable (in which case no decay is applied).
--------------------------------------------------------------------- -/

/-- One fetched event document. -/
structure UserEvent where
  productId : Option String
  type : String
  daysOld : Option ℤ

/-- The fixed per-type weight table (line 61):
purchase=3.0, wishlist=2.0, cart=1.5, view=1.0, unknown=1.0 default. -/
def typeWeight (t : String) : ℚ :=
  if t = "purchase" then 3
  else if t = "wishlist" then 2
  else if t = "cart" then 3 / 2
  else if t = "view" then 1
  else 1

/-- The linear time-decay factor `max(0.5, 1.0 - days_old / 365)`
(line 92). -/
def decayFactor (d : ℤ) : ℚ :=
  max (1 / 2) (1 - (d : ℚ) / 365)

/-- One event's weight (lines 74-93): the type weight, multiplied by
the decay factor when a timestamp is available. -/
def eventWeight (e : UserEvent) : ℚ :=
  typeWeight e.type *
    (match e.daysOld with
     | some d => decayFactor d
     | none => 1)

/-- `interacted[pid]["weight"] += weight` on a defaultdict (line 97):
add to the existing entry, or append a new one (Python dicts keep
insertion order). -/
def addWeight (acc : List (String × ℚ)) (k : String) (w : ℚ) :
    List (String × ℚ) :=
  if acc.any (fun p => p.1 = k) then
    acc.map (fun p => if p.1 = k then (p.1, p.2 + w) else p)
  else acc ++ [(k, w)]

/-- One iteration of the event loop (lines 63-99): skip events without
a truthy productId, otherwise accumulate the event's weight. -/
def interactedStep (acc : List (String × ℚ)) (e : UserEvent) :
    List (String × ℚ) :=
  match e.productId with
  | none => acc
  | some pid => if pid = "" then acc else addWeight acc pid (eventWeight e)

/-- The event loop of `_get_user_interacted_products`. -/
def interactedFold (events : List UserEvent) : List (String × ℚ) :=
  events.foldl interactedStep []

/-- `sorted(result.items(), key=lambda x: x[1], reverse=True)`
(line 107) as a stable ≤-style relation: higher weight first. -/
def weightGE (x y : String × ℚ) : Prop := y.2 ≤ x.2

instance : DecidableRel weightGE := fun x y =>
  inferInstanceAs (Decidable (y.2 ≤ x.2))

instance : IsTotal (String × ℚ) weightGE := ⟨fun x y => le_total y.2 x.2⟩

instance : IsTrans (String × ℚ) weightGE :=
  ⟨fun _ _ _ h1 h2 => le_trans h2 h1⟩

/-- `_get_user_interacted_products` restricted to the fetched event
list: per-product summed weights, sorted by weight descending. -/
def get_user_interacted_products (events : List UserEvent) :
    List (String × ℚ) :=
  (interactedFold events).insertionSort weightGE

/-- Total weight the spec assigns to a product id: the sum of the
weights of all its events. -/
def weightSpecOf (events : List UserEvent) (pid : String) : ℚ :=
  ((events.filter (fun e => e.productId = some pid)).map eventWeight).sum

/-- Association-list lookup mirroring dict access. -/
def lookupW (acc : List (String × ℚ)) (k : String) : Option ℚ :=
  (acc.find? (fun p => p.1 = k)).map Prod.snd

theorem addWeight_keys (acc : List (String × ℚ)) (k : String) (w : ℚ) :
    (addWeight acc k w).map Prod.fst =
      if k ∈ acc.map Prod.fst then acc.map Prod.fst
      else acc.map Prod.fst ++ [k] := by
  rw [addWeight]
  by_cases h : acc.any (fun p => p.1 = k)
  · rw [if_pos h, if_pos]
    · rw [List.map_map]
      refine List.map_congr_left ?_
      intro p _
      by_cases hp : p.1 = k <;> simp [hp]
    · rcases List.any_eq_true.mp h with ⟨p, hp, hpk⟩
      simp only [decide_eq_true_eq] at hpk
      exact hpk ▸ List.mem_map_of_mem Prod.fst hp
  · rw [if_neg h, if_neg]
    · simp
    · intro hmem
      rcases List.mem_map.mp hmem with ⟨p, hp, hpk⟩
      exact h (List.any_eq_true.mpr ⟨p, hp, by simp [hpk]⟩)

theorem lookupW_none_iff (acc : List (String × ℚ)) (k : String) :
    lookupW acc k = none ↔ k ∉ acc.map Prod.fst := by
  rw [lookupW, Option.map_eq_none', List.find?_eq_none]
  constructor
  · intro h hmem
    rcases List.mem_map.mp hmem with ⟨p, hp, hpk⟩
    exact absurd (by simp [hpk]) (h p hp)
  · intro h p hp
    simp only [decide_eq_true_eq]
    intro hpk
    exact h (hpk ▸ List.mem_map_of_mem Prod.fst hp)

theorem lookupW_update (acc : List (String × ℚ)) (k : String) (w : ℚ)
    (q : String) :
    lookupW (acc.map (fun p => if p.1 = k then (p.1, p.2 + w) else p)) q =
      if q = k then (lookupW acc k).map (fun v => v + w) else lookupW acc q := by
  rw [lookupW, List.find?_map]
  have hpred : ((fun p : String × ℚ => decide (p.1 = q)) ∘
      (fun p : String × ℚ => if p.1 = k then (p.1, p.2 + w) else p)) =
      (fun p : String × ℚ => decide (p.1 = q)) := by
    funext p
    by_cases hp : p.1 = k <;> simp [hp, Function.comp]
  rw [hpred]
  by_cases hq : q = k
  · subst hq
    cases hfind : acc.find? (fun p => decide (p.1 = q)) with
    | none => simp [lookupW, hfind]
    | some p =>
      have hp : p.1 = q := by simpa using List.find?_some hfind
      simp [lookupW, hfind, hp]
  · cases hfind : acc.find? (fun p => decide (p.1 = q)) with
    | none => simp [lookupW, hfind, hq]
    | some p =>
      have hp : p.1 = q := by simpa using List.find?_some hfind
      have hpk : ¬ p.1 = k := by rw [hp]; exact hq
      simp [lookupW, hfind, hpk, hq]

theorem lookupW_append_of_none {acc : List (String × ℚ)} {q : String}
    (h : lookupW acc q = none) (k : String) (w : ℚ) :
    lookupW (acc ++ [(k, w)]) q = if q = k then some w else none := by
  induction acc with
  | nil =>
    simp only [List.nil_append, lookupW, List.find?_cons, List.find?_nil]
    by_cases hq : q = k
    · simp [hq]
    · simp [Ne.symm hq, hq]
  | cons p acc ih =>
    simp only [lookupW, List.cons_append, List.find?_cons] at h ⊢
    by_cases hp : p.1 = q
    · simp [hp] at h
    · simp only [show (decide (p.1 = q)) = false by simp [hp]] at h ⊢
      exact ih h

theorem lookupW_append_of_some {acc : List (String × ℚ)} {q : String}
    {v : ℚ} (h : lookupW acc q = some v) (k : String) (w : ℚ) :
    lookupW (acc ++ [(k, w)]) q = some v := by
  induction acc with
  | nil => simp [lookupW] at h
  | cons p acc ih =>
    simp only [lookupW, List.cons_append, List.find?_cons] at h ⊢
    by_cases hp : p.1 = q
    · simpa [hp] using h
    · simp only [show (decide (p.1 = q)) = false by simp [hp]] at h ⊢
      exact ih h

theorem lookupW_addWeight (acc : List (String × ℚ)) (k : String) (w : ℚ)
    (q : String) :
    lookupW (addWeight acc k w) q =
      if q = k then some ((lookupW acc k).getD 0 + w)
      else lookupW acc q := by
  rw [addWeight]
  by_cases h : acc.any (fun p => p.1 = k)
  · rw [if_pos h, lookupW_update]
    by_cases hq : q = k
    · rcases List.any_eq_true.mp h with ⟨p, hp, hpk⟩
      simp only [decide_eq_true_eq] at hpk
      have hsome : (acc.find? (fun p => decide (p.1 = k))).isSome :=
        List.find?_isSome.mpr ⟨p, hp, by simp [hpk]⟩
      rcases Option.isSome_iff_exists.mp hsome with ⟨p', hp'⟩
      simp [hq, lookupW, hp']
    · simp [hq]
  · rw [if_neg h]
    have hnone : lookupW acc k = none := by
      rw [lookupW_none_iff]
      intro hmem
      rcases List.mem_map.mp hmem with ⟨p, hp, hpk⟩
      exact h (List.any_eq_true.mpr ⟨p, hp, by simp [hpk]⟩)
    by_cases hq : q = k
    · subst hq
      rw [lookupW_append_of_none hnone, hnone]
      simp
    · cases hlq : lookupW acc q with
      | none => rw [lookupW_append_of_none hlq, if_neg hq, if_neg hq]
      | some v => rw [lookupW_append_of_some hlq, if_neg hq]

theorem weightSpecOf_nil (pid : String) : weightSpecOf [] pid = 0 := rfl

theorem weightSpecOf_cons_match {e : UserEvent} {pid : String}
    (h : e.productId = some pid) (events : List UserEvent) :
    weightSpecOf (e :: events) pid = eventWeight e + weightSpecOf events pid := by
  simp [weightSpecOf, List.filter_cons, h]

theorem weightSpecOf_cons_skip {e : UserEvent} {pid : String}
    (h : ¬ e.productId = some pid) (events : List UserEvent) :
    weightSpecOf (e :: events) pid = weightSpecOf events pid := by
  simp [weightSpecOf, List.filter_cons, h]

theorem interactedFold_lookup :
    ∀ (events : List UserEvent) (acc : List (String × ℚ)) (pid : String),
      pid ≠ "" →
      lookupW (events.foldl interactedStep acc) pid =
        if (lookupW acc pid).isSome ∨
            events.any (fun e => e.productId = some pid)
        then some ((lookupW acc pid).getD 0 + weightSpecOf events pid)
        else none := by
  intro events
  induction events with
  | nil =>
    intro acc pid _
    simp only [List.foldl_nil, List.any_nil, or_false, weightSpecOf_nil,
      add_zero]
    cases h : lookupW acc pid with
    | none => simp
    | some v => simp
  | cons e events ih =>
    intro acc pid hpid
    rw [List.foldl_cons]
    by_cases hmatch : e.productId = some pid
    · have hstep : interactedStep acc e = addWeight acc pid (eventWeight e) := by
        simp only [interactedStep, hmatch]
        rw [if_neg hpid]
      rw [hstep, ih _ pid hpid, weightSpecOf_cons_match hmatch,
        lookupW_addWeight]
      simp [hmatch, add_assoc]
    · have hany : (e :: events).any (fun e => e.productId = some pid) =
          events.any (fun e => e.productId = some pid) := by
        simp [List.any_cons, hmatch]
      rw [weightSpecOf_cons_skip hmatch]
      cases hepid : e.productId with
      | none =>
        have hstep : interactedStep acc e = acc := by
          simp only [interactedStep, hepid]
        rw [hstep, ih _ pid hpid, hany]
      | some pid0 =>
        by_cases hpid0 : pid0 = ""
        · have hstep : interactedStep acc e = acc := by
            simp only [interactedStep, hepid]
            rw [if_pos hpid0]
          rw [hstep, ih _ pid hpid, hany]
        · have hstep : interactedStep acc e =
              addWeight acc pid0 (eventWeight e) := by
            simp only [interactedStep, hepid]
            rw [if_neg hpid0]
          have hne : pid ≠ pid0 := by
            intro hcontra
            exact hmatch (by rw [hepid, hcontra])
          rw [hstep, ih _ pid hpid, hany, lookupW_addWeight, if_neg hne]

theorem addWeight_fst_mem {acc : List (String × ℚ)} {k : String} {w : ℚ}
    {p : String × ℚ} (hp : p ∈ addWeight acc k w) :
    p.1 ∈ acc.map Prod.fst ∨ p.1 = k := by
  rw [addWeight] at hp
  by_cases h : acc.any (fun p => p.1 = k)
  · rw [if_pos h] at hp
    rcases List.mem_map.mp hp with ⟨p0, hp0, hpeq⟩
    left
    by_cases hp0k : p0.1 = k
    · rw [if_pos hp0k] at hpeq
      rw [← hpeq]
      show p0.1 ∈ acc.map Prod.fst
      exact List.mem_map_of_mem Prod.fst hp0
    · rw [if_neg hp0k] at hpeq
      exact hpeq ▸ List.mem_map_of_mem Prod.fst hp0
  · rw [if_neg h] at hp
    rcases List.mem_append.mp hp with hp | hp
    · exact Or.inl (List.mem_map_of_mem Prod.fst hp)
    · simp only [List.mem_singleton] at hp
      exact Or.inr (by rw [hp])

theorem interactedFold_keys :
    ∀ (events : List UserEvent) (acc : List (String × ℚ)),
      ((acc.map Prod.fst).Nodup ∧ ∀ p ∈ acc, p.1 ≠ "") →
      ((events.foldl interactedStep acc).map Prod.fst).Nodup ∧
        ∀ p ∈ events.foldl interactedStep acc, p.1 ≠ "" := by
  intro events
  induction events with
  | nil => intro acc h; exact h
  | cons e events ih =>
    intro acc ⟨hnodup, hne⟩
    rw [List.foldl_cons]
    refine ih _ ⟨?_, ?_⟩
    · cases hepid : e.productId with
      | none => simpa only [interactedStep, hepid] using hnodup
      | some pid0 =>
        by_cases hpid0 : pid0 = ""
        · simp only [interactedStep, hepid]
          rw [if_pos hpid0]; exact hnodup
        · simp only [interactedStep, hepid]
          rw [if_neg hpid0, addWeight_keys]
          by_cases hmem : pid0 ∈ acc.map Prod.fst
          · rw [if_pos hmem]; exact hnodup
          · rw [if_neg hmem]
            exact List.Nodup.append hnodup (List.nodup_singleton _)
              (List.disjoint_singleton.mpr hmem)
    · intro p hp
      cases hepid : e.productId with
      | none =>
        simp only [interactedStep, hepid] at hp
        exact hne p hp
      | some pid0 =>
        simp only [interactedStep, hepid] at hp
        by_cases hpid0 : pid0 = ""
        · rw [if_pos hpid0] at hp; exact hne p hp
        · rw [if_neg hpid0] at hp
          rcases addWeight_fst_mem hp with hmem | heq
          · rcases List.mem_map.mp hmem with ⟨p0, hp0, hpeq⟩
            exact hpeq ▸ hne p0 hp0
          · exact heq ▸ hpid0

theorem lookupW_eq_some_of_mem :
    ∀ {acc : List (String × ℚ)}, (acc.map Prod.fst).Nodup →
      ∀ {pid : String} {w : ℚ}, (pid, w) ∈ acc → lookupW acc pid = some w := by
  intro acc
  induction acc with
  | nil => intro _ pid w hmem; cases hmem
  | cons p acc ih =>
    intro hnodup pid w hmem
    rw [List.map_cons, List.nodup_cons] at hnodup
    rcases List.mem_cons.mp hmem with hmem | hmem
    · rw [← hmem]
      simp [lookupW, List.find?_cons]
    · have hpfst : ¬ p.1 = pid := by
        intro hcontra
        exact hnodup.1 (hcontra ▸ List.mem_map_of_mem Prod.fst hmem)
      simp only [lookupW, List.find?_cons,
        show (decide (p.1 = pid)) = false by simp [hpfst]]
      exact ih hnodup.2 hmem

theorem mem_of_lookupW_eq_some {acc : List (String × ℚ)} {pid : String}
    {w : ℚ} (h : lookupW acc pid = some w) : (pid, w) ∈ acc := by
  rw [lookupW] at h
  cases hfind : acc.find? (fun p => decide (p.1 = pid)) with
  | none => rw [hfind] at h; cases h
  | some p =>
    rw [hfind] at h
    have hp1 : p.1 = pid := by simpa using List.find?_some hfind
    have hp2 : p.2 = w := by simpa using h
    have : p = (pid, w) := Prod.ext hp1 hp2
    exact this ▸ List.mem_of_find?_eq_some hfind

theorem typeWeight_nonneg (t : String) : 0 ≤ typeWeight t := by
  rw [typeWeight]
  split_ifs <;> norm_num

/-- **C8** — for every fetched event list, the Personalization Profile
Builder computes each event's weight as the fixed per-type base weight
(purchase=3, wishlist=2, cart=1.5, view=1, unknown=1) multiplied by the
decay factor `max(0.5, 1 - days_old/365)` (no decay when the timestamp
is missing); weights are summed per distinct (truthy) entity id across
repeated events; entities are sorted by total weight descending; every
event contributes at least half its base type weight, and a 10-year-old
purchase event contributes exactly 1.5 = 0.5 × 3. -/
theorem c8_profile_weights (events : List UserEvent) :
    List.Sorted weightGE (get_user_interacted_products events) ∧
    (∀ pid w, (pid, w) ∈ get_user_interacted_products events →
      pid ≠ "" ∧ w = weightSpecOf events pid) ∧
    (∀ pid, pid ≠ "" → (∃ e ∈ events, e.productId = some pid) →
      (pid, weightSpecOf events pid) ∈ get_user_interacted_products events) ∧
    (typeWeight "purchase" = 3 ∧ typeWeight "wishlist" = 2 ∧
      typeWeight "cart" = 3 / 2 ∧ typeWeight "view" = 1 ∧
      ∀ t, t ∉ ["purchase", "wishlist", "cart", "view"] → typeWeight t = 1) ∧
    (∀ e : UserEvent, typeWeight e.type / 2 ≤ eventWeight e) ∧
    eventWeight ⟨some "x", "purchase", some 3650⟩ = 3 / 2 := by
  have hkeys := interactedFold_keys events []
    ⟨List.nodup_nil, by intro p hp; cases hp⟩
  have hperm := List.perm_insertionSort weightGE (interactedFold events)
  refine ⟨List.sorted_insertionSort weightGE _, ?_, ?_, ?_, ?_, ?_⟩
  · intro pid w hmem
    have hmemf : (pid, w) ∈ interactedFold events := hperm.mem_iff.mp hmem
    have hpid : pid ≠ "" := hkeys.2 (pid, w) hmemf
    refine ⟨hpid, ?_⟩
    have hlook : lookupW (interactedFold events) pid = some w :=
      lookupW_eq_some_of_mem hkeys.1 hmemf
    rw [interactedFold, interactedFold_lookup events [] pid hpid] at hlook
    by_cases hcond : (lookupW [] pid).isSome = true ∨
        (events.any fun e => decide (e.productId = some pid)) = true
    · rw [if_pos hcond] at hlook
      have : (lookupW [] pid).getD 0 + weightSpecOf events pid = w :=
        Option.some.inj hlook
      rw [← this]
      simp [lookupW]
    · rw [if_neg hcond] at hlook
      cases hlook
  · intro pid hpid ⟨e, he, hepid⟩
    have hany : (events.any fun e => decide (e.productId = some pid)) = true :=
      List.any_eq_true.mpr ⟨e, he, by simp [hepid]⟩
    have hlook : lookupW (interactedFold events) pid =
        some (weightSpecOf events pid) := by
      rw [interactedFold, interactedFold_lookup events [] pid hpid,
        if_pos (Or.inr hany)]
      simp [lookupW]
    exact hperm.mem_iff.mpr (mem_of_lookupW_eq_some hlook)
  · refine ⟨rfl, rfl, rfl, rfl, ?_⟩
    intro t ht
    simp only [List.mem_cons, List.not_mem_nil, or_false, not_or] at ht
    obtain ⟨h1, h2, h3, h4⟩ := ht
    rw [typeWeight, if_neg h1, if_neg h2, if_neg h3, if_neg h4]
  · intro e
    rw [eventWeight]
    have htw := typeWeight_nonneg e.type
    cases e.daysOld with
    | none =>
      simp only
      linarith
    | some d =>
      simp only
      have hdecay : 1 / 2 ≤ decayFactor d := le_max_left _ _
      calc typeWeight e.type / 2 = typeWeight e.type * (1 / 2) := by ring
        _ ≤ typeWeight e.type * decayFactor d :=
          mul_le_mul_of_nonneg_left hdecay htw
  · rw [eventWeight]
    norm_num [typeWeight, decayFactor, max_def]

theorem c8_profile_weights_witness :
    ("p" : String) ≠ "" ∧
    ("p", weightSpecOf [⟨some "p", "view", none⟩] "p") ∈
      get_user_interacted_products [⟨some "p", "view", none⟩] := by
  refine ⟨by decide, ?_⟩
  exact (c8_profile_weights [⟨some "p", "view", none⟩]).2.2.1 "p" (by decide)
    ⟨⟨some "p", "view", none⟩, List.mem_singleton_self _, rfl⟩

/- ---------------------------------------------------------------------
   Personalized recommendation candidate loop
   (recommend_for_user, recommend.py lines 175-232) and popularity
   fallback (_get_popular_products, lines 294-332).
--------------------------------------------------------------------- -/

/-- A product document as consulted by the recommender. -/
structure ProductDoc where
  text_indexed : Option String
  name : String
  description : String
  category : Option String
  categoryId : Option String

/-- `product.get("text_indexed") or f"{name}. {description}"`
(line 158): the fallback applies when the field is missing or falsy. -/
def docText (p : ProductDoc) : String :=
  match p.text_indexed with
  | some t => if t = "" then p.name ++ ". " ++ p.description else t
  | none => p.name ++ ". " ++ p.description

/-- `product.get("category") or product.get("categoryId")` (line 195):
Python `or` falls through on a falsy first operand. -/
def catOf (p : ProductDoc) : Option String :=
  match p.category with
  | some c => if c = "" then p.categoryId else some c
  | none => p.categoryId

/-- The per-candidate record kept in `candidates` (lines 201-205); the
stored product document itself is recovered through the lookup. -/
structure CandInfo where
  score : ℚ
  category : Option String

/-- `candidates[nid_str] = ...`: dict assignment preserving insertion
order. -/
def setCand (cands : List (String × CandInfo)) (k : String)
    (v : CandInfo) : List (String × CandInfo) :=
  if cands.any (fun p => p.1 = k) then
    cands.map (fun p => if p.1 = k then (p.1, v) else p)
  else cands ++ [(k, v)]

/-- `seen_categories[category] += 1` on a defaultdict (line 208). -/
def bumpCat (acc : List (String × ℕ)) (c : String) : List (String × ℕ) :=
  if acc.any (fun p => p.1 = c) then
    acc.map (fun p => if p.1 = c then (p.1, p.2 + 1) else p)
  else acc ++ [(c, 1)]

/-- `seen_categories.get(category, 0)` (line 197). -/
def catCount (acc : List (String × ℕ)) (c : String) : ℕ :=
  ((acc.find? (fun p => p.1 = c)).map Prod.snd).getD 0

/-- The world of one recommend_for_user run: fetched events, product
lookup, embedding service and ANN service as oracles, and the two
query parameters. -/
structure RecWorld where
  userId : String
  userEvents : List UserEvent
  allEventPids : List (Option String)
  products : String → Option ProductDoc
  embedText : String → Option (List ℚ)
  findNeighbors : List ℚ → ℕ → List (String × ℚ)
  top_k : ℕ
  diversity : ℚ

/-- The candidate loop of the personalized path (lines 182-211):
skip neighbors that the user already interacted with or whose product
is missing; score `max(0, 1 - dist)`; when the product has a truthy
category and `diversity > 0`, multiply by
`1 - min(0.5, diversity * (count * 0.1))` where `count` is the number
of previously kept candidates with that category; stop once
`top_k * 2` candidates are kept. -/
def candLoop (w : RecWorld) (exclude : List String) :
    List (String × ℚ) → List (String × CandInfo) → List (String × ℕ) →
    List (String × CandInfo)
  | [], cands, _ => cands
  | n :: rest, cands, seenCats =>
    if n.1 ∈ exclude then candLoop w exclude rest cands seenCats
    else
      match w.products n.1 with
      | none => candLoop w exclude rest cands seenCats
      | some p =>
        let sim :=
          match catOf p with
          | some c =>
            if c ≠ "" ∧ 0 < w.diversity then
              max 0 (1 - n.2) *
                (1 - min (1 / 2)
                  (w.diversity * ((catCount seenCats c : ℚ) * (1 / 10))))
            else max 0 (1 - n.2)
          | none => max 0 (1 - n.2)
        let cands1 := setCand cands n.1 ⟨sim, catOf p⟩
        let seenCats1 :=
          match catOf p with
          | some c => if c ≠ "" then bumpCat seenCats c else seenCats
          | none => seenCats
        if w.top_k * 2 ≤ cands1.length then cands1
        else candLoop w exclude rest cands1 seenCats1

/-- The claim's score formula for a candidate at distance `dist` whose
product is `p`, with `n` previously kept candidates of the same
category. -/
def scoreFormula (w : RecWorld) (dist : ℚ) (p : ProductDoc) (n : ℕ) : ℚ :=
  match catOf p with
  | some c =>
    if c ≠ "" ∧ 0 < w.diversity then
      max 0 (1 - dist) *
        (1 - min (1 / 2) (w.diversity * ((n : ℚ) * (1 / 10))))
    else max 0 (1 - dist)
  | none => max 0 (1 - dist)


theorem find?_fst_append_of_none {β : Type} {acc : List (String × β)}
    {q : String}
    (h : acc.find? (fun p => decide (p.1 = q)) = none) (x : String × β) :
    (acc ++ [x]).find? (fun p => decide (p.1 = q)) =
      if x.1 = q then some x else none := by
  induction acc with
  | nil =>
    simp only [List.nil_append, List.find?_cons, List.find?_nil]
    by_cases hx : x.1 = q
    · simp [hx]
    · simp [hx]
  | cons p acc ih =>
    simp only [List.find?_cons, List.cons_append] at h ⊢
    by_cases hp : p.1 = q
    · simp [hp] at h
    · simp only [show (decide (p.1 = q)) = false by simp [hp]] at h ⊢
      exact ih h

theorem find?_fst_append_of_some {β : Type} {acc : List (String × β)}
    {q : String} {p : String × β}
    (h : acc.find? (fun r => decide (r.1 = q)) = some p) (x : String × β) :
    (acc ++ [x]).find? (fun r => decide (r.1 = q)) = some p := by
  induction acc with
  | nil => simp at h
  | cons r acc ih =>
    simp only [List.find?_cons, List.cons_append] at h ⊢
    by_cases hr : r.1 = q
    · simpa [hr] using h
    · simp only [show (decide (r.1 = q)) = false by simp [hr]] at h ⊢
      exact ih h

theorem catCount_bumpCat (acc : List (String × ℕ)) (c0 c : String) :
    catCount (bumpCat acc c0) c =
      if c = c0 then catCount acc c + 1 else catCount acc c := by
  rw [bumpCat]
  by_cases h : acc.any (fun p => p.1 = c0)
  · rw [if_pos h]
    have hpred : ((fun p : String × ℕ => decide (p.1 = c)) ∘
        (fun p : String × ℕ => if p.1 = c0 then (p.1, p.2 + 1) else p)) =
        (fun p : String × ℕ => decide (p.1 = c)) := by
      funext p
      by_cases hp : p.1 = c0 <;> simp [hp, Function.comp]
    rw [catCount, List.find?_map, hpred]
    by_cases hc : c = c0
    · subst hc
      rcases List.any_eq_true.mp h with ⟨p, hp, hpk⟩
      simp only [decide_eq_true_eq] at hpk
      have hsome : (acc.find? (fun p => decide (p.1 = c))).isSome :=
        List.find?_isSome.mpr ⟨p, hp, by simp [hpk]⟩
      rcases Option.isSome_iff_exists.mp hsome with ⟨p', hp'⟩
      have hp1 : p'.1 = c := by simpa using List.find?_some hp'
      simp [catCount, hp', hp1]
    · cases hfind : acc.find? (fun p => decide (p.1 = c)) with
      | none => simp [catCount, hfind, hc]
      | some p =>
        have hp1 : p.1 = c := by simpa using List.find?_some hfind
        have hpk : ¬ p.1 = c0 := by rw [hp1]; exact hc
        simp [catCount, hfind, hpk, hc]
  · rw [if_neg h]
    have hnone : acc.find? (fun p => decide (p.1 = c0)) = none := by
      rw [List.find?_eq_none]
      intro p hp
      simp only [decide_eq_true_eq]
      intro hpk
      exact h (List.any_eq_true.mpr ⟨p, hp, by simp [hpk]⟩)
    by_cases hc : c = c0
    · subst hc
      rw [catCount, find?_fst_append_of_none hnone]
      simp [catCount, hnone]
    · cases hfind : acc.find? (fun p => decide (p.1 = c)) with
      | none =>
        rw [catCount, find?_fst_append_of_none hfind]
        simp [catCount, hfind, hc, Ne.symm hc]
      | some p =>
        rw [catCount, find?_fst_append_of_some hfind]
        simp [catCount, hfind, hc]

theorem append_single_decomp {α : Type} :
    ∀ {pre : List α} {l : List α} {a : α} {post : List α} {x : α},
      l ++ [a] = pre ++ x :: post →
      (post = [] ∧ pre = l ∧ x = a) ∨
        ∃ post', l = pre ++ x :: post' ∧ post = post' ++ [a] := by
  intro pre
  induction pre with
  | nil =>
    intro l a post x h
    simp only [List.nil_append] at h
    cases l with
    | nil =>
      simp only [List.nil_append] at h
      left
      exact ⟨(List.cons.inj h).2.symm, rfl, (List.cons.inj h).1.symm⟩
    | cons b l' =>
      rw [List.cons_append] at h
      obtain ⟨hbx, hpost⟩ := List.cons.inj h
      right
      exact ⟨l', by rw [List.nil_append, hbx], hpost.symm⟩
  | cons p pre ih =>
    intro l a post x h
    cases l with
    | nil =>
      simp only [List.nil_append, List.cons_append] at h
      have := (List.cons.inj h).2
      exact absurd this.symm (List.append_ne_nil_of_right_ne_nil _ (by simp))
    | cons b l' =>
      simp only [List.cons_append] at h
      obtain ⟨hbp, hrest⟩ := List.cons.inj h
      rcases ih hrest with ⟨h1, h2, h3⟩ | ⟨post', h1, h2⟩
      · exact Or.inl ⟨h1, by rw [h2, hbp], h3⟩
      · exact Or.inr ⟨post', by rw [List.cons_append, ← h1, hbp], h2⟩

theorem setCand_append {cands : List (String × CandInfo)} {k : String}
    (h : cands.any (fun p => p.1 = k) = false) (v : CandInfo) :
    setCand cands k v = cands ++ [(k, v)] := by
  rw [setCand, if_neg (by simp [h])]

theorem candLoop_decomp (w : RecWorld) (exclude : List String) :
    ∀ (ns : List (String × ℚ)) (cands : List (String × CandInfo))
      (seenCats : List (String × ℕ)),
      (ns.map Prod.fst).Nodup →
      (∀ n ∈ ns, cands.any (fun p => p.1 = n.1) = false) →
      (∀ c : String, c ≠ "" →
        catCount seenCats c =
          (cands.filter (fun y => y.2.category = some c)).length) →
      ∀ pre x post,
        candLoop w exclude ns cands seenCats = pre ++ x :: post →
        (∃ post0, cands = pre ++ x :: post0) ∨
        (∃ dist, (x.1, dist) ∈ ns ∧
          ∃ p, w.products x.1 = some p ∧ x.2.category = catOf p ∧
            x.2.score = scoreFormula w dist p
              ((pre.filter (fun y => y.2.category = catOf p)).length)) := by
  intro ns
  induction ns with
  | nil =>
    intro cands seenCats _ _ _ pre x post h
    rw [candLoop] at h
    exact Or.inl ⟨post, h⟩
  | cons n rest ih =>
    intro cands seenCats hnodup hfresh hinv pre x post h
    rw [List.map_cons, List.nodup_cons] at hnodup
    by_cases hexc : n.1 ∈ exclude
    · rw [candLoop, if_pos hexc] at h
      rcases ih cands seenCats hnodup.2
        (fun m hm => hfresh m (List.mem_cons_of_mem _ hm)) hinv pre x post h
        with h' | ⟨dist, hd, rest'⟩
      · exact Or.inl h'
      · exact Or.inr ⟨dist, List.mem_cons_of_mem _ hd, rest'⟩
    · cases hprod : w.products n.1 with
      | none =>
        rw [candLoop, if_neg hexc] at h
        simp only [hprod] at h
        rcases ih cands seenCats hnodup.2
          (fun m hm => hfresh m (List.mem_cons_of_mem _ hm)) hinv pre x post h
          with h' | ⟨dist, hd, rest'⟩
        · exact Or.inl h'
        · exact Or.inr ⟨dist, List.mem_cons_of_mem _ hd, rest'⟩
      | some p =>
        rw [candLoop, if_neg hexc] at h
        simp only [hprod] at h
        set sim : ℚ :=
          match catOf p with
          | some c =>
            if c ≠ "" ∧ 0 < w.diversity then
              max 0 (1 - n.2) *
                (1 - min (1 / 2)
                  (w.diversity * ((catCount seenCats c : ℚ) * (1 / 10))))
            else max 0 (1 - n.2)
          | none => max 0 (1 - n.2) with hsimdef
        have hfreshn : cands.any (fun q => q.1 = n.1) = false :=
          hfresh n (List.mem_cons_self _ _)
        have happ : setCand cands n.1 ⟨sim, catOf p⟩ =
            cands ++ [(n.1, ⟨sim, catOf p⟩)] := setCand_append hfreshn _
        rw [happ] at h
        have hsimformula : sim = scoreFormula w n.2 p
            ((cands.filter (fun y => y.2.category = catOf p)).length) := by
          rw [hsimdef]
          cases hcat : catOf p with
          | none => simp only [scoreFormula, hcat]
          | some c =>
            by_cases hc : c = ""
            · subst hc
              simp only [scoreFormula, hcat]
              simp
            · simp only [scoreFormula, hcat, hinv c hc]
        have hnewdisj : ∀ pre1 x1 post1,
            cands ++ [(n.1, (⟨sim, catOf p⟩ : CandInfo))] = pre1 ++ x1 :: post1 →
            (∃ post0, cands = pre1 ++ x1 :: post0) ∨
            (∃ dist, (x1.1, dist) ∈ n :: rest ∧
              ∃ p1, w.products x1.1 = some p1 ∧ x1.2.category = catOf p1 ∧
                x1.2.score = scoreFormula w dist p1
                  ((pre1.filter (fun y => y.2.category = catOf p1)).length)) := by
          intro pre1 x1 post1 h1
          rcases append_single_decomp h1 with ⟨_, hpre1, hx1⟩ | ⟨post', h2, _⟩
          · right
            refine ⟨n.2, by rw [hx1]; exact List.mem_cons_self _ _, p, ?_, ?_, ?_⟩
            · rw [hx1]; exact hprod
            · rw [hx1]
            · rw [hx1, hpre1]
              exact hsimformula
          · exact Or.inl ⟨post', h2⟩
        by_cases hbreak : w.top_k * 2 ≤ (cands ++ [(n.1, (⟨sim, catOf p⟩ : CandInfo))]).length
        · rw [if_pos hbreak] at h
          exact hnewdisj pre x post h
        · rw [if_neg hbreak] at h
          have hfresh1 : ∀ m ∈ rest,
              (cands ++ [(n.1, (⟨sim, catOf p⟩ : CandInfo))]).any
                (fun q => q.1 = m.1) = false := by
            intro m hm
            rw [List.any_append]
            have h1 : cands.any (fun q => q.1 = m.1) = false :=
              hfresh m (List.mem_cons_of_mem _ hm)
            have h2 : ¬ n.1 = m.1 := by
              intro hcontra
              exact hnodup.1 (hcontra ▸ List.mem_map_of_mem Prod.fst hm)
            simp [h1, h2]
          have hinv1 : ∀ c : String, c ≠ "" →
              catCount (match catOf p with
                | some c0 => if c0 ≠ "" then bumpCat seenCats c0 else seenCats
                | none => seenCats) c =
              ((cands ++ [(n.1, (⟨sim, catOf p⟩ : CandInfo))]).filter
                (fun y => y.2.category = some c)).length := by
            intro c hc
            rw [List.filter_append, List.length_append]
            cases hcat : catOf p with
            | none =>
              dsimp only
              simp only [List.filter_cons, List.filter_nil]
              rw [if_neg (by simp)]
              simp [hinv c hc]
            | some c0 =>
              dsimp only
              by_cases hc0 : c0 = ""
              · rw [if_neg (by rw [hc0]; simp)]
                simp only [List.filter_cons, List.filter_nil]
                rw [if_neg (by simp [hc0, Ne.symm hc])]
                simp [hinv c hc]
              · rw [if_pos hc0, catCount_bumpCat]
                by_cases hcc0 : c = c0
                · rw [if_pos hcc0, hinv c hc]
                  simp only [List.filter_cons, List.filter_nil]
                  rw [if_pos (by simp [hcc0])]
                  simp
                · rw [if_neg hcc0, hinv c hc]
                  simp only [List.filter_cons, List.filter_nil]
                  rw [if_neg (by simp [Ne.symm hcc0])]
                  simp
          rcases ih _ _ hnodup.2 hfresh1 hinv1 pre x post h
            with ⟨post0, h'⟩ | ⟨dist, hd, rest'⟩
          · exact hnewdisj pre x post0 h'
          · exact Or.inr ⟨dist, List.mem_cons_of_mem _ hd, rest'⟩

/-- **C9** — on the personalized recommendation path, every kept
candidate's score is `max(0, 1 - dist)` multiplied, when the product
has a truthy category and `diversity_factor > 0`, by
`1 - min(0.5, diversity_factor * (occurrences_so_far * 0.1))`, where
`occurrences_so_far` counts the previously kept candidates sharing the
same category (`scoreFormula`); with `diversity_factor = 0` the score
is unchanged, and the penalty factor always lies in `[1/2, 1]`, so a
score is never reduced by more than half. -/
theorem c9_diversity_penalty (w : RecWorld) (exclude : List String)
    (ns : List (String × ℚ)) (hnodup : (ns.map Prod.fst).Nodup) :
    (∀ pre x post,
      candLoop w exclude ns [] [] = pre ++ x :: post →
      ∃ dist, (x.1, dist) ∈ ns ∧
        ∃ p, w.products x.1 = some p ∧ x.2.category = catOf p ∧
          x.2.score = scoreFormula w dist p
            ((pre.filter (fun y => y.2.category = catOf p)).length)) ∧
    (∀ (dist : ℚ) (p : ProductDoc) (n : ℕ), w.diversity = 0 →
      scoreFormula w dist p n = max 0 (1 - dist)) ∧
    (∀ (dist : ℚ) (p : ProductDoc) (n : ℕ),
      max 0 (1 - dist) / 2 ≤ scoreFormula w dist p n ∧
        scoreFormula w dist p n ≤ max 0 (1 - dist)) := by
  refine ⟨?_, ?_, ?_⟩
  · intro pre x post h
    rcases candLoop_decomp w exclude ns [] [] hnodup
        (fun n _ => rfl) (fun c _ => rfl) pre x post h with ⟨post0, h'⟩ | h'
    · exact absurd h'.symm (List.append_ne_nil_of_right_ne_nil _ (by simp))
    · exact h'
  · intro dist p n hdiv
    rw [scoreFormula]
    cases catOf p with
    | none => rfl
    | some c =>
      dsimp only
      rw [if_neg (by rw [hdiv]; simp)]
  · intro dist p n
    have hbase : (0 : ℚ) ≤ max 0 (1 - dist) := le_max_left _ _
    rw [scoreFormula]
    cases catOf p with
    | none =>
      constructor
      · linarith
      · exact le_refl _
    | some c =>
      dsimp only
      by_cases hcond : c ≠ "" ∧ 0 < w.diversity
      · rw [if_pos hcond]
        have hminle : min (1 / 2 : ℚ)
            (w.diversity * ((n : ℚ) * (1 / 10))) ≤ 1 / 2 :=
          min_le_left _ _
        have hminge : (0 : ℚ) ≤ min (1 / 2)
            (w.diversity * ((n : ℚ) * (1 / 10))) := by
          refine le_min (by norm_num) ?_
          have hn : (0 : ℚ) ≤ (n : ℚ) * (1 / 10) := by positivity
          exact mul_nonneg (le_of_lt hcond.2) hn
        constructor
        · have hfac : (1 / 2 : ℚ) ≤
              1 - min (1 / 2) (w.diversity * ((n : ℚ) * (1 / 10))) := by
            linarith
          calc max 0 (1 - dist) / 2 = max 0 (1 - dist) * (1 / 2) := by ring
            _ ≤ max 0 (1 - dist) *
                (1 - min (1 / 2) (w.diversity * ((n : ℚ) * (1 / 10)))) :=
              mul_le_mul_of_nonneg_left hfac hbase
        · have hfac : 1 - min (1 / 2)
              (w.diversity * ((n : ℚ) * (1 / 10))) ≤ 1 := by linarith
          calc max 0 (1 - dist) *
              (1 - min (1 / 2) (w.diversity * ((n : ℚ) * (1 / 10)))) ≤
                max 0 (1 - dist) * 1 := mul_le_mul_of_nonneg_left hfac hbase
            _ = max 0 (1 - dist) := mul_one _
      · rw [if_neg hcond]
        constructor
        · linarith
        · exact le_refl _

/-- Concrete world for the C9 witness. -/
def c9World : RecWorld :=
  { userId := "u"
    userEvents := []
    allEventPids := []
    products := fun pid => if pid = "q" then
        some ⟨none, "prod", "desc", none, none⟩ else none
    embedText := fun _ => some [1]
    findNeighbors := fun _ _ => [("q", 1)]
    top_k := 5
    diversity := 3 / 10 }

theorem c9_diversity_penalty_witness :
    (([("q", (1 : ℚ))] : List (String × ℚ)).map Prod.fst).Nodup ∧
    candLoop c9World [] [("q", (1 : ℚ))] [] [] =
      [] ++ ("q", (⟨max 0 (1 - 1), none⟩ : CandInfo)) :: [] ∧
    ∃ dist, (("q", dist) : String × ℚ) ∈ [("q", (1 : ℚ))] ∧
      ∃ p, c9World.products "q" = some p ∧
        (⟨max 0 (1 - 1), none⟩ : CandInfo).category = catOf p ∧
        (⟨max 0 (1 - 1), none⟩ : CandInfo).score = scoreFormula c9World dist p
          ((([] : List (String × CandInfo)).filter
            (fun y => y.2.category = catOf p)).length) := by
  have hloop : candLoop c9World [] [("q", (1 : ℚ))] [] [] =
      [] ++ ("q", (⟨max 0 (1 - 1), none⟩ : CandInfo)) :: [] := by
    norm_num [candLoop, c9World, setCand, catOf]
  refine ⟨by decide, hloop, ?_⟩
  have h := (c9_diversity_penalty c9World [] [("q", (1 : ℚ))] (by decide)).1
    [] ("q", ⟨max 0 (1 - 1), none⟩) [] hloop
  rcases h with ⟨dist, hmem, hrest⟩
  exact ⟨dist, hmem, hrest⟩

/- ---------------------------------------------------------------------
   Popularity fallback (_get_popular_products, lines 294-332) and the
   recommend_for_user dispatch (lines 120-236).
--------------------------------------------------------------------- -/

/-- Generic association lookup (dict access by key). -/
def lookupV {κ β : Type} [DecidableEq κ] (acc : List (κ × β)) (k : κ) :
    Option β :=
  (acc.find? (fun p => p.1 = k)).map Prod.snd

/-- The `$group ... $sum 1` counter, one bump per event document. -/
def bumpCount {κ : Type} [DecidableEq κ] (acc : List (κ × ℕ)) (k : κ) :
    List (κ × ℕ) :=
  if acc.any (fun p => p.1 = k) then
    acc.map (fun p => if p.1 = k then (p.1, p.2 + 1) else p)
  else acc ++ [(k, 1)]

/-- Count held for key `k` (0 when absent). -/
def countV {κ : Type} [DecidableEq κ] (acc : List (κ × ℕ)) (k : κ) : ℕ :=
  ((acc.find? (fun p => p.1 = k)).map Prod.snd).getD 0

theorem find?_key_append_of_none {κ β : Type} [DecidableEq κ]
    {acc : List (κ × β)} {q : κ}
    (h : acc.find? (fun p => decide (p.1 = q)) = none) (x : κ × β) :
    (acc ++ [x]).find? (fun p => decide (p.1 = q)) =
      if x.1 = q then some x else none := by
  induction acc with
  | nil =>
    simp only [List.nil_append, List.find?_cons, List.find?_nil]
    by_cases hx : x.1 = q
    · simp [hx]
    · simp [hx]
  | cons p acc ih =>
    simp only [List.find?_cons, List.cons_append] at h ⊢
    by_cases hp : p.1 = q
    · simp [hp] at h
    · simp only [show (decide (p.1 = q)) = false by simp [hp]] at h ⊢
      exact ih h

theorem find?_key_append_of_some {κ β : Type} [DecidableEq κ]
    {acc : List (κ × β)} {q : κ} {p : κ × β}
    (h : acc.find? (fun r => decide (r.1 = q)) = some p) (x : κ × β) :
    (acc ++ [x]).find? (fun r => decide (r.1 = q)) = some p := by
  induction acc with
  | nil => simp at h
  | cons r acc ih =>
    simp only [List.find?_cons, List.cons_append] at h ⊢
    by_cases hr : r.1 = q
    · simpa [hr] using h
    · simp only [show (decide (r.1 = q)) = false by simp [hr]] at h ⊢
      exact ih h

theorem countV_bumpCount {κ : Type} [DecidableEq κ]
    (acc : List (κ × ℕ)) (k0 k : κ) :
    countV (bumpCount acc k0) k =
      if k = k0 then countV acc k + 1 else countV acc k := by
  rw [bumpCount]
  by_cases h : acc.any (fun p => p.1 = k0)
  · rw [if_pos h]
    have hpred : ((fun p : κ × ℕ => decide (p.1 = k)) ∘
        (fun p : κ × ℕ => if p.1 = k0 then (p.1, p.2 + 1) else p)) =
        (fun p : κ × ℕ => decide (p.1 = k)) := by
      funext p
      by_cases hp : p.1 = k0 <;> simp [hp, Function.comp]
    rw [countV, List.find?_map, hpred]
    by_cases hc : k = k0
    · subst hc
      rcases List.any_eq_true.mp h with ⟨p, hp, hpk⟩
      simp only [decide_eq_true_eq] at hpk
      have hsome : (acc.find? (fun p => decide (p.1 = k))).isSome :=
        List.find?_isSome.mpr ⟨p, hp, by simp [hpk]⟩
      rcases Option.isSome_iff_exists.mp hsome with ⟨p', hp'⟩
      have hp1 : p'.1 = k := by simpa using List.find?_some hp'
      simp [countV, hp', hp1]
    · cases hfind : acc.find? (fun p => decide (p.1 = k)) with
      | none => simp [countV, hfind, hc]
      | some p =>
        have hp1 : p.1 = k := by simpa using List.find?_some hfind
        have hpk : ¬ p.1 = k0 := by rw [hp1]; exact hc
        simp [countV, hfind, hpk, hc]
  · rw [if_neg h]
    have hnone : acc.find? (fun p => decide (p.1 = k0)) = none := by
      rw [List.find?_eq_none]
      intro p hp
      simp only [decide_eq_true_eq]
      intro hpk
      exact h (List.any_eq_true.mpr ⟨p, hp, by simp [hpk]⟩)
    by_cases hc : k = k0
    · subst hc
      rw [countV, find?_key_append_of_none hnone]
      simp [countV, hnone]
    · cases hfind : acc.find? (fun p => decide (p.1 = k)) with
      | none =>
        rw [countV, find?_key_append_of_none hfind]
        simp [countV, hfind, hc, Ne.symm hc]
      | some p =>
        rw [countV, find?_key_append_of_some hfind]
        simp [countV, hfind, hc]

theorem bumpCount_keys {κ : Type} [DecidableEq κ]
    (acc : List (κ × ℕ)) (k : κ) :
    (bumpCount acc k).map Prod.fst =
      if k ∈ acc.map Prod.fst then acc.map Prod.fst
      else acc.map Prod.fst ++ [k] := by
  rw [bumpCount]
  by_cases h : acc.any (fun p => p.1 = k)
  · rw [if_pos h, if_pos]
    · rw [List.map_map]
      refine List.map_congr_left ?_
      intro p _
      by_cases hp : p.1 = k <;> simp [hp]
    · rcases List.any_eq_true.mp h with ⟨p, hp, hpk⟩
      simp only [decide_eq_true_eq] at hpk
      exact hpk ▸ List.mem_map_of_mem Prod.fst hp
  · rw [if_neg h, if_neg]
    · simp
    · intro hmem
      rcases List.mem_map.mp hmem with ⟨p, hp, hpk⟩
      exact h (List.any_eq_true.mpr ⟨p, hp, by simp [hpk]⟩)

theorem lookupV_eq_some_of_mem {κ β : Type} [DecidableEq κ] :
    ∀ {acc : List (κ × β)}, (acc.map Prod.fst).Nodup →
      ∀ {k : κ} {v : β}, (k, v) ∈ acc → lookupV acc k = some v := by
  intro acc
  induction acc with
  | nil => intro _ k v hmem; cases hmem
  | cons p acc ih =>
    intro hnodup k v hmem
    rw [List.map_cons, List.nodup_cons] at hnodup
    rcases List.mem_cons.mp hmem with hmem | hmem
    · rw [← hmem]
      simp [lookupV, List.find?_cons]
    · have hpfst : ¬ p.1 = k := by
        intro hcontra
        exact hnodup.1 (hcontra ▸ List.mem_map_of_mem Prod.fst hmem)
      simp only [lookupV, List.find?_cons,
        show (decide (p.1 = k)) = false by simp [hpfst]]
      exact ih hnodup.2 hmem

/-- `$group by productId, count $sum 1` over all event documents
(line 302); a missing productId groups under the null key. -/
def popularGroups (pids : List (Option String)) :
    List (Option String × ℕ) :=
  pids.foldl bumpCount []

theorem popularGroups_count (pids : List (Option String)) :
    ∀ (acc : List (Option String × ℕ)) (k : Option String),
      countV (pids.foldl bumpCount acc) k =
        countV acc k + (pids.filter (fun x => x = k)).length := by
  induction pids with
  | nil => intro acc k; simp
  | cons x pids ih =>
    intro acc k
    rw [List.foldl_cons, ih, countV_bumpCount, List.filter_cons]
    by_cases hk : k = x
    · rw [if_pos hk, if_pos (by simp [hk])]
      simp [Nat.add_assoc, Nat.add_comm 1]
    · rw [if_neg hk, if_neg (by simp [Ne.symm hk])]

theorem popularGroups_keys_nodup (pids : List (Option String)) :
    ∀ acc : List (Option String × ℕ), (acc.map Prod.fst).Nodup →
      ((pids.foldl bumpCount acc).map Prod.fst).Nodup := by
  induction pids with
  | nil => intro acc h; exact h
  | cons x pids ih =>
    intro acc h
    rw [List.foldl_cons]
    refine ih _ ?_
    rw [bumpCount_keys]
    by_cases hmem : x ∈ acc.map Prod.fst
    · rw [if_pos hmem]; exact h
    · rw [if_neg hmem]
      exact List.Nodup.append h (List.nodup_singleton _)
        (List.disjoint_singleton.mpr hmem)

theorem mem_popularGroups_count {pids : List (Option String)}
    {k : Option String} {m : ℕ} (h : (k, m) ∈ popularGroups pids) :
    m = (pids.filter (fun x => x = k)).length := by
  have hnodup := popularGroups_keys_nodup pids [] (by simp)
  have hlook : lookupV (popularGroups pids) k = some m :=
    lookupV_eq_some_of_mem hnodup h
  have hcount := popularGroups_count pids [] k
  rw [popularGroups] at hlook
  have hv : countV (pids.foldl bumpCount []) k = m := by
    rw [countV]
    rw [lookupV] at hlook
    rw [hlook]
    rfl
  rw [hv] at hcount
  simpa [countV] using hcount

/-- One entry of a recommend response: the product id together with
the reported numeric score (`recommend_score` or `popularity_score`). -/
structure RecEntry where
  pid : String
  score : ℚ

/-- The recommend_for_user JSON payload; `strategy = none` models a
payload that carries no strategy key at all, and `total_interactions =
none` one without that key. -/
structure RecResponse where
  success : Bool
  user_id : String
  strategy : Option String
  message : Option String
  total_interactions : Option ℕ
  recommendations : List RecEntry

/-- Python `round(x, 4)` on the rational score model. -/
def round4q (x : ℚ) : ℚ := (round (x * 10000) : ℤ) / 10000

/-- `$sort count -1` order for the popularity pipeline (line 303),
ties keeping prior order through the stable sort. -/
def popCountGE (x y : Option String × ℕ) : Prop := y.2 ≤ x.2

instance : DecidableRel popCountGE := fun x y =>
  inferInstanceAs (Decidable (y.2 ≤ x.2))

instance : IsTotal (Option String × ℕ) popCountGE :=
  ⟨fun x y => Nat.le_total y.2 x.2⟩

instance : IsTrans (Option String × ℕ) popCountGE :=
  ⟨fun _ _ _ h1 h2 => le_trans h2 h1⟩

/-- The aggregation pipeline result (lines 301-306): group counts,
sorted by count descending, limited to top_k. -/
def popularRanked (w : RecWorld) : List (Option String × ℕ) :=
  ((popularGroups w.allEventPids).insertionSort popCountGE).take w.top_k

/-- The per-group body of the result loop (lines 310-320): skip a
falsy group key, skip a missing product, report the raw count as
`popularity_score`. -/
def popEntry (w : RecWorld) (g : Option String × ℕ) : Option RecEntry :=
  match g.1 with
  | none => none
  | some pid =>
    if pid = "" then none
    else (w.products pid).map (fun _ => ⟨pid, (g.2 : ℚ)⟩)

/-- `_get_popular_products` (lines 294-328): its payload has no
`strategy` key, user_id "fallback", and a fixed message. -/
def get_popular_products (w : RecWorld) : RecResponse :=
  { success := true
    user_id := "fallback"
    strategy := none
    message := some "No history, showing popular products"
    total_interactions := none
    recommendations := (popularRanked w).filterMap (popEntry w) }

/-- `candidates[nid]["score"] += sim*weight; ["count"] += 1` on the
defaultdict of `_recommend_by_individual_products` (lines 265-266). -/
def addScoreCount (acc : List (String × (ℚ × ℕ))) (k : String)
    (s : ℚ) : List (String × (ℚ × ℕ)) :=
  if acc.any (fun p => p.1 = k) then
    acc.map (fun p => if p.1 = k then (p.1, (p.2.1 + s, p.2.2 + 1)) else p)
  else acc ++ [(k, (s, 1))]

/-- `_recommend_by_individual_products` (lines 238-291): per top-5
interacted product, embed its text and accumulate weighted neighbor
scores, normalize by count, sort descending, cut to top_k and keep
entries whose product still resolves; strategy
"aggregated_content_based". -/
def recommend_aggregated (w : RecWorld)
    (interacted : List (String × ℚ)) : RecResponse :=
  let exclude := interacted.map Prod.fst
  let acc := (interacted.take 5).foldl (fun acc pw =>
    match w.products pw.1 with
    | none => acc
    | some p =>
      match w.embedText (docText p) with
      | none => acc
      | some emb =>
        if emb.isEmpty then acc
        else
          (w.findNeighbors emb (w.top_k * 2)).foldl (fun acc n =>
            if n.1 ∈ exclude then acc
            else addScoreCount acc n.1 (max 0 (1 - n.2) * pw.2)) acc) []
  let normed := acc.map (fun x =>
    (x.1, if 0 < x.2.2 then x.2.1 / (x.2.2 : ℚ) else x.2.1))
  { success := true
    user_id := w.userId
    strategy := some "aggregated_content_based"
    message := none
    total_interactions := none
    recommendations :=
      ((normed.insertionSort weightGE).take w.top_k).filterMap (fun x =>
        (w.products x.1).map (fun _ => ⟨x.1, round4q x.2⟩)) }

/-- Sort key of the personalized path (line 214): candidate score
descending, ties keeping insertion order through the stable sort. -/
def candGE (x y : String × CandInfo) : Prop := y.2.score ≤ x.2.score

instance : DecidableRel candGE := fun x y =>
  inferInstanceAs (Decidable (y.2.score ≤ x.2.score))

instance : IsTotal (String × CandInfo) candGE :=
  ⟨fun x y => le_total y.2.score x.2.score⟩

instance : IsTrans (String × CandInfo) candGE :=
  ⟨fun _ _ _ h1 h2 => le_trans h2 h1⟩

/-- The profile texts collected from the top-10 interacted products
(lines 150-159): skip products that do not resolve. -/
def userTexts (w : RecWorld) (interacted : List (String × ℚ)) :
    List String :=
  (interacted.take 10).filterMap (fun pw => (w.products pw.1).map docText)

/-- `" | ".join(user_texts[:5])` (line 168). -/
def profileText (w : RecWorld) (interacted : List (String × ℚ)) :
    String :=
  String.intercalate " | " ((userTexts w interacted).take 5)

/-- `recommend_for_user` (lines 120-232): no interactions or no
resolvable history products fall back to popular products; a failed
profile embedding falls back to the aggregated path; otherwise the
candidate loop runs over `top_k * 3` neighbors and the payload carries
strategy "personalized_content_based". -/
def recommend_for_user (w : RecWorld) : RecResponse :=
  let interacted := get_user_interacted_products w.userEvents
  if interacted.isEmpty then get_popular_products w
  else
    if (userTexts w interacted).isEmpty then get_popular_products w
    else
      match w.embedText (profileText w interacted) with
      | none => recommend_aggregated w interacted
      | some emb =>
        if emb.isEmpty then recommend_aggregated w interacted
        else
          let cands := candLoop w (interacted.map Prod.fst)
            (w.findNeighbors emb (w.top_k * 3)) [] []
          { success := true
            user_id := w.userId
            strategy := some "personalized_content_based"
            message := none
            total_interactions := some interacted.length
            recommendations :=
              ((cands.insertionSort candGE).take w.top_k).map
                (fun x => ⟨x.1, round4q x.2.score⟩) }

theorem recommend_no_history (w : RecWorld) (h : w.userEvents = []) :
    recommend_for_user w = get_popular_products w := by
  have hempty : get_user_interacted_products w.userEvents = [] := by
    rw [h]; rfl
  rw [recommend_for_user]
  simp only [hempty, List.isEmpty_nil, if_true]

theorem recommend_personalized_strategy (w : RecWorld)
    (h1 : (get_user_interacted_products w.userEvents).isEmpty = false)
    (h2 : (userTexts w (get_user_interacted_products w.userEvents)).isEmpty
      = false)
    (h3 : ∃ e, w.embedText
        (profileText w (get_user_interacted_products w.userEvents)) = some e
      ∧ e.isEmpty = false) :
    (recommend_for_user w).strategy = some "personalized_content_based" := by
  obtain ⟨e, he, hne⟩ := h3
  rw [recommend_for_user]
  simp only [h1, h2, he, hne, Bool.false_eq_true, if_false]

theorem popEntry_spec (w : RecWorld) (g : Option String × ℕ)
    (r : RecEntry) (h : popEntry w g = some r) :
    r.score = (g.2 : ℚ) ∧ g.1 = some r.pid := by
  obtain ⟨k, cnt⟩ := g
  cases k with
  | none => simp only [popEntry] at h; cases h
  | some pid =>
    simp only [popEntry] at h
    by_cases hpid : pid = ""
    · rw [if_pos hpid] at h; cases h
    · rw [if_neg hpid] at h
      cases hw : w.products pid with
      | none => rw [hw] at h; cases h
      | some p =>
        rw [hw] at h
        simp only [Option.map_some'] at h
        injection h with h
        rw [← h]
        exact ⟨rfl, rfl⟩

theorem pairwise_filterMap_of {α β : Type} {R : α → α → Prop}
    {S : β → β → Prop} {f : α → Option β}
    (h : ∀ a b, R a b → ∀ c, f a = some c → ∀ d, f b = some d → S c d) :
    ∀ {l : List α}, l.Pairwise R → (l.filterMap f).Pairwise S := by
  intro l
  induction l with
  | nil => intro _; simp
  | cons a l ih =>
    intro hp
    rw [List.pairwise_cons] at hp
    rw [List.filterMap_cons]
    cases hfa : f a with
    | none => exact ih hp.2
    | some c =>
      rw [List.pairwise_cons]
      refine ⟨?_, ih hp.2⟩
      intro d hd
      rcases List.mem_filterMap.mp hd with ⟨b, hb, hfb⟩
      exact h a b (hp.1 b hb) c hfa d hfb

/-- **C3.** Corrected strategy tags of the recommend route. With zero
interaction events the route returns the popular-products payload: it
carries no strategy key (not the claimed "popularity_fallback"), and
its entries are ranked by raw interaction event counts in descending
order, each score being the raw count of events for that product id.
With interaction history whose profile embedding succeeds, the
strategy tag is "personalized_content_based" (not the claimed
"personalized"), and in particular never "popularity_fallback". -/
theorem c3_strategy_tags (w : RecWorld) :
    (w.userEvents = [] →
      recommend_for_user w = get_popular_products w ∧
      (get_popular_products w).strategy = none ∧
      (get_popular_products w).message =
        some "No history, showing popular products" ∧
      ((get_popular_products w).recommendations).Pairwise
        (fun a b => b.score ≤ a.score) ∧
      ∀ r ∈ (get_popular_products w).recommendations,
        r.score =
          ((w.allEventPids.filter (fun x => x = some r.pid)).length : ℚ)) ∧
    ((get_user_interacted_products w.userEvents).isEmpty = false →
      (userTexts w (get_user_interacted_products w.userEvents)).isEmpty
        = false →
      ∀ e, w.embedText
          (profileText w (get_user_interacted_products w.userEvents))
          = some e →
        e.isEmpty = false →
        (recommend_for_user w).strategy
          = some "personalized_content_based" ∧
        (recommend_for_user w).strategy ≠ some "popularity_fallback") := by
  constructor
  · intro h
    refine ⟨recommend_no_history w h, rfl, rfl, ?_, ?_⟩
    · have hsorted : ((popularGroups w.allEventPids).insertionSort
          popCountGE).Pairwise popCountGE :=
        List.sorted_insertionSort popCountGE _
      have htake : (popularRanked w).Pairwise popCountGE :=
        hsorted.sublist (List.take_sublist _ _)
      refine pairwise_filterMap_of ?_ htake
      intro a b hab c hc d hd
      rw [(popEntry_spec w a c hc).1, (popEntry_spec w b d hd).1]
      exact_mod_cast hab
    · intro r hr
      rcases List.mem_filterMap.mp hr with ⟨g, hg, hfg⟩
      have hs := popEntry_spec w g r hfg
      have hmem : g ∈ popularGroups w.allEventPids :=
        ((List.perm_insertionSort popCountGE _).mem_iff).mp
          (List.mem_of_mem_take hg)
      have hcount : g.2 =
          (w.allEventPids.filter (fun x => x = g.1)).length :=
        mem_popularGroups_count
          (show (g.1, g.2) ∈ popularGroups w.allEventPids by
            rw [Prod.mk.eta]; exact hmem)
      rw [hs.1, hcount, hs.2]
  · intro h1 h2 e he hne
    have hp := recommend_personalized_strategy w h1 h2 ⟨e, he, hne⟩
    refine ⟨hp, ?_⟩
    rw [hp]
    intro hcontra
    injection hcontra with hstr
    exact absurd hstr (by decide)

/-- A personalized-path world: one view event on product "p", whose
document resolves, with a working embedding service. -/
def c3World : RecWorld :=
  { userId := "u"
    userEvents := [⟨some "p", "view", none⟩]
    allEventPids := [some "p"]
    products := fun pid =>
      if pid = "p" then some ⟨none, "n", "d", none, none⟩ else none
    embedText := fun _ => some [1]
    findNeighbors := fun _ _ => []
    top_k := 20
    diversity := 3 / 10 }

/-- The same world with the user's event history emptied. -/
def c3ZeroWorld : RecWorld :=
  { c3World with userEvents := [], allEventPids := [] }

/-- **C3 counterexample.** With history the strategy tag is
"personalized_content_based", not "personalized"; with zero events the
payload has no strategy key at all, not "popularity_fallback". -/
theorem c3_strategy_counterexample :
    (recommend_for_user c3World).strategy
      = some "personalized_content_based" ∧
    (recommend_for_user c3World).strategy ≠ some "personalized" ∧
    c3ZeroWorld.userEvents = [] ∧
    (recommend_for_user c3ZeroWorld).strategy = none ∧
    (recommend_for_user c3ZeroWorld).strategy
      ≠ some "popularity_fallback" := by
  have hp := recommend_personalized_strategy c3World rfl rfl ⟨[1], rfl, rfl⟩
  have hz : recommend_for_user c3ZeroWorld = get_popular_products c3ZeroWorld :=
    recommend_no_history c3ZeroWorld rfl
  refine ⟨hp, ?_, rfl, ?_, ?_⟩
  · rw [hp]
    intro hcontra
    injection hcontra with hstr
    exact absurd hstr (by decide)
  · rw [hz]; rfl
  · rw [hz]
    intro hcontra
    cases hcontra

/-- **C3 witness.** The amended theorem applied at the two concrete
worlds, discharging each hypothesis there. -/
theorem c3_strategy_tags_witness :
    recommend_for_user c3ZeroWorld = get_popular_products c3ZeroWorld ∧
    (recommend_for_user c3World).strategy
      = some "personalized_content_based" := by
  refine ⟨((c3_strategy_tags c3ZeroWorld).1 rfl).1, ?_⟩
  exact ((c3_strategy_tags c3World).2 rfl rfl [1] rfl rfl).1
